import Mathlib

/-!
Verification of the release-version resolution and recipe-patching engine of
the cf-tooling repository (update_go_releases.py, update_nodejs_releases.py,
feedstock_utils.py).

Lines of recipe files are modelled as `List Char`.  The regular expressions
used by the Python sources are fixed, concrete patterns; each one is
translated into an explicit recognizer / substitution function over
`List Char`, faithful to Python `re` semantics: leftmost match, greedy runs
(all the patterns used here are backtracking-free because each greedy class
is disjoint from the literal that follows it), `re.sub` replacing every
non-overlapping occurrence, `re.match` anchoring at the start of the line,
`re.search` trying every start position, and `$` matching at the end of the
string or just before a final newline.
-/

namespace CF

abbrev Line := List Char

/-- String literal to character list, used to write the concrete pattern
fragments of the Python regexes. -/
def lit (s : String) : Line := s.toList

/-- Python `\s` for the ASCII whitespace characters. -/
def isPySpace (c : Char) : Bool :=
  c = ' ' || c = '\t' || c = '\n' || c = '\r' || c = '\x0b' || c = '\x0c'

/-- Python `\d`. -/
def isDigitC (c : Char) : Bool := '0' ≤ c && c ≤ '9'

/-- Python `[a-fA-F0-9]`. -/
def isHexC (c : Char) : Bool :=
  isDigitC c || ('a' ≤ c && c ≤ 'f') || ('A' ≤ c && c ≤ 'F')

/-- Python `\w` restricted to ASCII (the identifier characters appearing in
the Jinja2 placeholders of recipe URLs). -/
def isWordC (c : Char) : Bool :=
  isDigitC c || ('a' ≤ c && c ≤ 'z') || ('A' ≤ c && c ≤ 'Z') || c = '_'

/-- Strip a literal pattern from the front of a line: `some rest` when the
line is `pat ++ rest`, else `none`. -/
def stripPre : Line → Line → Option Line
  | [], s => some s
  | _ :: _, [] => none
  | p :: pt, c :: t => if p = c then stripPre pt t else none

/-- Python `\s*`: drop the maximal leading whitespace run. -/
def skipWs (s : Line) : Line := s.dropWhile isPySpace

/-- Python `\s+` (followed in all our patterns by a non-whitespace literal,
so the greedy run is never backtracked): `some rest` iff the line starts
with at least one whitespace character, `rest` being the line after the
maximal whitespace run. -/
def expectWs1 : Line → Option Line
  | [] => none
  | c :: t => if isPySpace c then some (t.dropWhile isPySpace) else none

/-- Does `pat` occur as a contiguous substring of `s`? -/
def hasSub (pat s : Line) : Bool := s.tails.any (fun t => (stripPre pat t).isSome)

/-! ### Version ordering

`packaging.version.parse` applied to plain dotted numeric strings (the only
version strings this system produces) yields a release tuple compared
componentwise with implicit zero padding.  `verLe` / `verLt` model `<=` /
`<` on such release tuples. -/

/-- Release-tuple `<=` of `packaging`: componentwise, the shorter tuple
padded with zeros (an exhausted left tuple is all zeros, hence below
anything). -/
def verLe : List Nat → List Nat → Bool
  | [], _ => true
  | a :: as, [] => if 0 < a then false else verLe as []
  | a :: as, b :: bs => if a < b then true else if b < a then false else verLe as bs

/-- Release-tuple `<` of `packaging` (nothing is strictly below an
exhausted right tuple, which is all zeros). -/
def verLt : List Nat → List Nat → Bool
  | _, [] => false
  | [], b :: bs => if 0 < b then true else verLt [] bs
  | a :: as, b :: bs => if a < b then true else if b < a then false else verLt as bs

/-- Release-tuple equivalence (equal after zero padding). -/
def verEq (a b : List Nat) : Bool := verLe a b && verLe b a

/-- Numeric value of a digit run. -/
def digitsToNat (d : Line) : Nat := d.foldl (fun a c => 10 * a + (c.toNat - '0'.toNat)) 0

/-- Python `str.split('.')`. -/
def splitOnDot : Line → List Line
  | [] => [[]]
  | c :: t =>
    if c = '.' then [] :: splitOnDot t
    else
      match splitOnDot t with
      | [] => [[c]]
      | r :: rs => (c :: r) :: rs

/-- Release tuple of `packaging.version.parse` for a plain dotted numeric
version string; `none` models the `InvalidVersion` exception for anything
else (only dotted numeric strings reach the parser in this system). -/
def parseDotted (s : Line) : Option (List Nat) :=
  (splitOnDot s).mapM (fun comp =>
    if comp.isEmpty then none
    else if comp.all isDigitC then some (digitsToNat comp) else none)

/-- Parsed release tuple with a default, the key function of
`max(versions, key=parse_version)` (never hits the default on the version
strings stored in the groups). -/
def parseDottedD (s : Line) : List Nat := (parseDotted s).getD []

/-! ### VersionResolver (update_go_releases.get_go_versions_by_minor_series,
update_nodejs_releases.get_nodejs_versions_by_minor_series) -/

/-- Tag pattern of update_go_releases.py: `re.match(r'^go(1\.\d+\.\d+)$', tag_name)`,
returning the captured version string. -/
def goTagVersion (tag : Line) : Option Line := do
  let s1 ← stripPre (lit "go1.") tag
  let d1 := s1.takeWhile isDigitC
  if d1.isEmpty then none else
  let s2 ← stripPre (lit ".") (s1.dropWhile isDigitC)
  let d2 := s2.takeWhile isDigitC
  if d2.isEmpty then none else
  let rest := s2.dropWhile isDigitC
  if rest = [] || rest = lit "\n" then some (lit "1." ++ d1 ++ lit "." ++ d2) else none

/-- Tag pattern of update_nodejs_releases.py: `re.match(r'^v(\d+\.\d+\.\d+)$', tag_name)`,
returning the captured version string. -/
def nodeTagVersion (tag : Line) : Option Line := do
  let s1 ← stripPre (lit "v") tag
  let d1 := s1.takeWhile isDigitC
  if d1.isEmpty then none else
  let s2 ← stripPre (lit ".") (s1.dropWhile isDigitC)
  let d2 := s2.takeWhile isDigitC
  if d2.isEmpty then none else
  let s3 ← stripPre (lit ".") (s2.dropWhile isDigitC)
  let d3 := s3.takeWhile isDigitC
  if d3.isEmpty then none else
  let rest := s3.dropWhile isDigitC
  if rest = [] || rest = lit "\n" then some (d1 ++ lit "." ++ d2 ++ lit "." ++ d3) else none

/-- Minor series of a Go version: `'.'.join(version_str.split('.')[:2])`. -/
def seriesOf (v : Line) : Line := List.intercalate (lit ".") ((splitOnDot v).take 2)

/-- Major series of a Node.js version: `version_str.split('.')[0]`. -/
def majorOf (v : Line) : Line := (splitOnDot v).headD []

/-- Append a version to the (insertion-ordered) group of its series, the
in-memory behaviour of `defaultdict(list)` indexing plus `append`. -/
def addToGroup : List (Line × List Line) → Line → Line → List (Line × List Line)
  | [], k, v => [(k, [v])]
  | (k', vs) :: rest, k, v =>
    if k' = k then (k', vs ++ [v]) :: rest else (k', vs) :: addToGroup rest k v

/-- Body of the tag loop shared by both resolvers: match the tag pattern,
parse the version (discarding it with a diagnostic on failure), derive the
series, and group it when the series is tracked. -/
def collectStep (tagVer : Line → Option Line) (seriesFn : Line → Line)
    (target : List Line) (groups : List (Line × List Line)) (tag : Line) :
    List (Line × List Line) :=
  match tagVer tag with
  | none => groups
  | some v =>
    match parseDotted v with
    | none => groups
    | some _ =>
      let ms := seriesFn v
      if ms ∈ target then addToGroup groups ms v else groups

/-- The `versions_by_series` value after the tag loop. -/
def collectTags (tagVer : Line → Option Line) (seriesFn : Line → Line)
    (target : List Line) (tags : List Line) : List (Line × List Line) :=
  tags.foldl (collectStep tagVer seriesFn target) []

/-- Python `max(v0 :: vs, key=parse_version)`: the first element whose key
is maximal (`max` replaces the running best only on a strictly greater
key). -/
def maxByVer (vs : List Line) (v0 : Line) : Line :=
  vs.foldl (fun best v => if verLt (parseDottedD best) (parseDottedD v) then v else best) v0

/-- Python `max(vs, key=parse_version)` for a nonempty list (the groups are
never empty; the `[]` case is a dummy). -/
def maxFirst : List Line → Line
  | [] => []
  | v :: r => maxByVer r v

/-- The `latest_by_series` loop: pick the maximum version of each group,
keeping the insertion order of the series keys. -/
def latestBySeries (groups : List (Line × List Line)) : List (Line × Line) :=
  groups.map (fun g => (g.1, maxFirst g.2))

/-- update_go_releases.get_go_versions_by_minor_series, with the fetched tag
names passed as an argument (the GitHub fetch is I/O). -/
def get_go_versions_by_minor_series (target_series : List Line) (tags : List Line) :
    List (Line × Line) :=
  latestBySeries (collectTags goTagVersion seriesOf target_series tags)

/-- update_nodejs_releases.get_nodejs_versions_by_minor_series, with the
fetched tag names passed as an argument. -/
def get_nodejs_versions_by_minor_series (target_series : List Line) (tags : List Line) :
    List (Line × Line) :=
  latestBySeries (collectTags nodeTagVersion majorOf target_series tags)

/-- Does one tag contribute a version to series `s`: it must match the tag
pattern, parse, and have series `s`. -/
def matchOne (tagVer : Line → Option Line) (seriesFn : Line → Line)
    (s : Line) (t : Line) : Option Line :=
  match tagVer t with
  | none => none
  | some v =>
    match parseDotted v with
    | none => none
    | some _ => if seriesFn v = s then some v else none

/-- The version strings of the tags that match the pattern, parse, and fall
in series `s` (in tag order); the specification's "matching tags of a
series". -/
def matchingVersions (tagVer : Line → Option Line) (seriesFn : Line → Line)
    (s : Line) (tags : List Line) : List Line :=
  tags.filterMap (matchOne tagVer seriesFn s)

/-- Association-list lookup, the dict access used on `versions_by_series`
and the SHA256 mappings. -/
def alookup {α : Type} (k : Line) : List (Line × α) → Option α
  | [] => none
  | (k', v) :: r => if k' = k then some v else alookup k r

/-! ### VersionGate (feedstock_utils.check_version_needs_update) -/

/-- feedstock_utils.check_version_needs_update.  `none` for the current
version models Python `None` (and `some []` the falsy empty string, both
short-circuiting to `True`); the result is `none` when `parse_version`
would raise on either input. -/
def check_version_needs_update (current_version : Option Line) (new_version : Line) :
    Option Bool :=
  match current_version with
  | none => some true
  | some cv =>
    if cv.isEmpty then some true
    else
      match parseDotted new_version, parseDotted cv with
      | some vn, some vc => some (!verLe vn vc)
      | _, _ => none

/-! ### RecipeDocument (load / serialize)

`update_feedstock` loads the recipe with `f.readlines()` (split keeping the
newline terminators) and persists it with `f.writelines(updated_lines)`
(plain concatenation). -/

/-- Python `f.readlines()`: split into lines, each keeping its trailing
newline; a final unterminated line is kept as-is. -/
def splitLinesKeepEnds : Line → List Line
  | [] => []
  | c :: t =>
    if c = '\n' then [c] :: splitLinesKeepEnds t
    else
      match splitLinesKeepEnds t with
      | [] => [[c]]
      | l :: ls => (c :: l) :: ls

/-- Python `f.writelines`: concatenation of the lines. -/
def joinLines (ls : List Line) : Line := ls.foldr (fun l acc => l ++ acc) []

/-! ### RecipePatcher: shared line classifiers and substitutions -/

/-- Leftmost match of `(\s+number:\s*)\d+` anchored at the start of `s`:
the kept group `\s+number:\s*` and the remainder after the greedy digit
run. -/
def numberMatchAt (s : Line) : Option (Line × Line) :=
  let w := s.takeWhile isPySpace
  if w.isEmpty then none else
  match stripPre (lit "number:") (s.dropWhile isPySpace) with
  | none => none
  | some s2 =>
    let u := s2.takeWhile isPySpace
    let s3 := s2.dropWhile isPySpace
    let d := s3.takeWhile isDigitC
    if d.isEmpty then none
    else some (w ++ lit "number:" ++ u, s3.dropWhile isDigitC)

/-- Match of `(\s+sha256:\s*)[a-fA-F0-9]{64}` anchored at the start of `s`:
the kept group and the remainder after the 64 hex characters. -/
def sha256MatchAt (s : Line) : Option (Line × Line) :=
  let w := s.takeWhile isPySpace
  if w.isEmpty then none else
  match stripPre (lit "sha256:") (s.dropWhile isPySpace) with
  | none => none
  | some s2 =>
    let u := s2.takeWhile isPySpace
    let s3 := s2.dropWhile isPySpace
    if 64 ≤ s3.length && (s3.take 64).all isHexC then
      some (w ++ lit "sha256:" ++ u, s3.drop 64)
    else none

/-- Match of `({% set version = ")[^"]+(")` anchored at the start of `s`
(the replacement template of the legacy dialect): the kept opening group
and the remainder after the closing quote. -/
def goVersionMatchAt (s : Line) : Option (Line × Line) :=
  match stripPre (lit "\x7b% set version = \"") s with
  | none => none
  | some s1 =>
    let v := s1.takeWhile (fun c => c ≠ '"')
    if v.isEmpty then none else
    match stripPre (lit "\"") (s1.dropWhile (fun c => c ≠ '"')) with
    | none => none
    | some s2 => some (lit "\x7b% set version = \"", s2)

/-- Classifier `re.match(r'\s*{%\s*set\s+version\s*=', line)` of the legacy
dialect. -/
def matchSetVersion (l : Line) : Bool :=
  (do
    let s1 ← stripPre (lit "\x7b%") (skipWs l)
    let s2 ← stripPre (lit "set") (skipWs s1)
    let s3 ← expectWs1 s2
    let s4 ← stripPre (lit "version") s3
    let _ ← stripPre (lit "=") (skipWs s4)
    pure ()).isSome

/-- Classifier `re.match(r'\s+number:\s*\d+', line)` (identical in both
dialects; the structured dialect writes an explicit `^`, which `re.match`
implies). -/
def matchNumberLine (l : Line) : Bool := (numberMatchAt l).isSome

/-- Classifier `re.match(r'\s+sha256:\s*[a-fA-F0-9]{64}', line)`. -/
def matchSha256Line (l : Line) : Bool := (sha256MatchAt l).isSome

/-- Driver of `re.sub` for an anchored-at-position matcher: scan left to
right, at each position emit the match's kept group followed by the
replacement and continue after the match, otherwise copy one character.
The fuel (initialized to the length) dominates the number of steps because
every match consumes at least one character. -/
def subAllF (matchAt : Line → Option (Line × Line)) (rep : Line) : Nat → Line → Line
  | 0, s => s
  | _ + 1, [] => []
  | f + 1, c :: t =>
    match matchAt (c :: t) with
    | some (kept, rest) =>
      if rest.length ≤ t.length then kept ++ rep ++ subAllF matchAt rep f rest
      else c :: subAllF matchAt rep f t
    | none => c :: subAllF matchAt rep f t

/-- Python `re.sub(pattern, group ++ rep, line)` replacing every
non-overlapping occurrence. -/
def subAll (matchAt : Line → Option (Line × Line)) (rep : Line) (s : Line) : Line :=
  subAllF matchAt rep s.length s

/-- Legacy-dialect version rewrite:
`re.sub(r'({% set version = ")[^"]+(")', rf'\g<1>{new_version}\g<2>', line)`. -/
def subGoVersion (ver : Line) (l : Line) : Line :=
  subAll goVersionMatchAt (ver ++ lit "\"") l

/-- Build-number rewrite:
`re.sub(r'(\s+number:\s*)\d+', r'\g<1>0', line)`. -/
def subGoNumber (l : Line) : Line := subAll numberMatchAt (lit "0") l

/-- Legacy-dialect checksum rewrite:
`re.sub(r'(\s+sha256:\s*)[a-fA-F0-9]{64}', rf'\g<1>{new_sha256}', line)`. -/
def subGoSha256 (digest : Line) (l : Line) : Line := subAll sha256MatchAt digest l

/-- Read the build number a line carries, per the pattern
`\s+number:\s*(\d+)`. -/
def readNumber (l : Line) : Option Nat := do
  let s1 ← expectWs1 l
  let s2 ← stripPre (lit "number:") s1
  let d := (skipWs s2).takeWhile isDigitC
  if d.isEmpty then none else some (digitsToNat d)

/-! ### Legacy-dialect URL association (update_go_releases.update_feedstock) -/

/-- Fuel-driven Python `str.replace(pat, rep)`: replace every
non-overlapping occurrence left to right.  The guard on the remainder's
length makes fuel = length sufficient for every nonempty pattern. -/
def pyReplaceF (pat rep : Line) : Nat → Line → Line
  | 0, s => s
  | _ + 1, [] => []
  | f + 1, c :: t =>
    match stripPre pat (c :: t) with
    | some rest =>
      if rest.length ≤ t.length then rep ++ pyReplaceF pat rep f rest
      else c :: pyReplaceF pat rep f t
    | none => c :: pyReplaceF pat rep f t

/-- Python `s.replace(pat, rep)`. -/
def pyReplace (pat rep s : Line) : Line := pyReplaceF pat rep s.length s

/-- Expansion of the Jinja2 placeholders in a templated URL:
`.replace('{{ version }}', v).replace('{{version}}', v)`
`.replace('{{ name }}', 'go').replace('{{name}}', 'go')`. -/
def expandTemplate (ver u : Line) : Line :=
  pyReplace (lit "\x7b\x7bname\x7d\x7d") (lit "go")
    (pyReplace (lit "\x7b\x7b name \x7d\x7d") (lit "go")
      (pyReplace (lit "\x7b\x7bversion\x7d\x7d") ver
        (pyReplace (lit "\x7b\x7b version \x7d\x7d") ver u)))

/-- Attempt of the literal URL pattern
`url:\s*(https://[^\s]+go<ver>[^\s]*)` at the current position: the greedy
`[^\s]*` always extends the group to the end of the maximal non-whitespace
run, and the match succeeds iff `go<ver>` occurs in that run at offset at
least 1 (the `[^\s]+`). -/
def tryUrlGoAt (ver : Line) (s : Line) : Option Line := do
  let s1 ← stripPre (lit "url:") s
  let s2 ← stripPre (lit "https://") (skipWs s1)
  let run := s2.takeWhile (fun c => !isPySpace c)
  match run with
  | [] => none
  | _ :: rt => if hasSub (lit "go" ++ ver) rt then some (lit "https://" ++ run) else none

/-- `re.search` of the literal URL pattern: try every start position. -/
def searchUrlGo (ver : Line) : Line → Option Line
  | [] => none
  | c :: t =>
    match tryUrlGoAt ver (c :: t) with
    | some u => some u
    | none => searchUrlGo ver t

/-- Characters allowed inside the non-placeholder parts of a templated URL,
`[^\s{]`. -/
def notSpaceBrace (c : Char) : Bool := !isPySpace c && c ≠ '\x7b'

/-- One Jinja2 placeholder `{{\s*\w+\s*}}`: the consumed characters and the
remainder. -/
def parsePlaceholder (s : Line) : Option (Line × Line) := do
  let s1 ← stripPre (lit "\x7b\x7b") s
  let u1 := s1.takeWhile isPySpace
  let s2 := s1.dropWhile isPySpace
  let w := s2.takeWhile isWordC
  if w.isEmpty then none else
  let s3 := s2.dropWhile isWordC
  let u2 := s3.takeWhile isPySpace
  let s4 := s3.dropWhile isPySpace
  let s5 ← stripPre (lit "\x7d\x7d") s4
  pure (lit "\x7b\x7b" ++ u1 ++ w ++ u2 ++ lit "\x7d\x7d", s5)

/-- The `(?:{{\s*\w+\s*}}[^\s{]*)+` tail of the templated URL pattern:
greedily consume placeholder-plus-run repetitions (empty iff no repetition
parses). -/
def templateReps : Nat → Line → Line
  | 0, _ => []
  | f + 1, s =>
    match parsePlaceholder s with
    | none => []
    | some (ph, s1) =>
      let r := s1.takeWhile notSpaceBrace
      ph ++ r ++ templateReps f (s1.dropWhile notSpaceBrace)

/-- Attempt of the templated URL pattern
`url:\s*(https://[^\s{]+(?:{{\s*\w+\s*}}[^\s{]*)+)` at the current
position. -/
def tryUrlTemplateAt (s : Line) : Option Line := do
  let s1 ← stripPre (lit "url:") s
  let s2 ← stripPre (lit "https://") (skipWs s1)
  let r1 := s2.takeWhile notSpaceBrace
  if r1.isEmpty then none else
  let s3 := s2.dropWhile notSpaceBrace
  let reps := templateReps s3.length s3
  if reps.isEmpty then none else some (lit "https://" ++ r1 ++ reps)

/-- `re.search` of the templated URL pattern. -/
def searchUrlTemplate : Line → Option Line
  | [] => none
  | c :: t =>
    match tryUrlTemplateAt (c :: t) with
    | some u => some u
    | none => searchUrlTemplate t

/-- The indices visited by `range(i-1, max(0, i-10), -1)`: from `i-1` down
to `max 0 (i-10) + 1` (the stop bound is exclusive, so line 0 is never
visited). -/
def backIndices (i : Nat) : List Nat :=
  (List.range' (i - 10 + 1) (i - 1 - (i - 10))).reverse

/-- The backward URL search of the legacy checksum resolution: at each
preceding line first try the literal pattern, then the templated pattern
(expanding its placeholders); stop at the first line where either
matches. -/
def findUrlScan (ver : Line) (doc : List Line) : List Nat → Option Line
  | [] => none
  | j :: js =>
    match searchUrlGo ver (doc.getD j []) with
    | some u => some u
    | none =>
      match searchUrlTemplate (doc.getD j []) with
      | some t => some (expandTemplate ver t)
      | none => findUrlScan ver doc js

/-- The `url_found` of update_go_releases.update_feedstock for the checksum
line at index `i`. -/
def findUrlAt (doc : List Line) (i : Nat) (ver : Line) : Option Line :=
  findUrlScan ver doc (backIndices i)

/-- Does a hash-mapping key come from a URL (every key the backward search
can produce starts with `https://`)? -/
def httpsKey (u : Line) : Bool := (stripPre (lit "https://") u).isSome

/-! ### Legacy-dialect scan (the meta.yaml line loop of
update_go_releases.update_feedstock, lines 247-295) -/

/-- Processing of one line of the legacy scan: version declaration,
build-number, checksum (resolved through the backward URL search against
the whole document), in this order; any other line is copied through. -/
def update_meta_yaml_line (ver : Line) (hm : List (Line × Line)) (doc : List Line)
    (i : Nat) (l : Line) : Line :=
  if matchSetVersion l then subGoVersion ver l
  else if matchNumberLine l then subGoNumber l
  else if matchSha256Line l then
    match findUrlAt doc i ver with
    | some u =>
      match alookup u hm with
      | some d => subGoSha256 d l
      | none => l
    | none => l
  else l

/-- The legacy line loop carrying the running index. -/
def updateMetaYamlAux (ver : Line) (hm : List (Line × Line)) (doc : List Line) :
    Nat → List Line → List Line
  | _, [] => []
  | i, l :: ls =>
    update_meta_yaml_line ver hm doc i l :: updateMetaYamlAux ver hm doc (i + 1) ls

/-- The `updated_lines` of update_go_releases.update_feedstock: the legacy
(meta.yaml) document after the scan. -/
def update_meta_yaml_lines (ver : Line) (hm : List (Line × Line)) (doc : List Line) :
    List Line :=
  updateMetaYamlAux ver hm doc 0 doc

/-! ### Structured-dialect scan (the recipe.yaml line loop of
update_nodejs_releases.update_feedstock, lines 254-319) -/

/-- The platform keys of the Node.js SHA256 mapping: `'unix'`, `'win-x64'`,
`'win-arm64'`. -/
inductive Platform
  | unix
  | winX64
  | winArm64
deriving DecidableEq

/-- Leftmost match of `(^\s*version:\s*)[0-9.]+` anchored at the start:
kept group and remainder after the greedy value run. -/
def nodeVersionMatchAt (s : Line) : Option (Line × Line) :=
  let w := s.takeWhile isPySpace
  match stripPre (lit "version:") (s.dropWhile isPySpace) with
  | none => none
  | some s2 =>
    let u := s2.takeWhile isPySpace
    let s3 := s2.dropWhile isPySpace
    let d := s3.takeWhile (fun c => isDigitC c || c = '.')
    if d.isEmpty then none
    else some (w ++ lit "version:" ++ u, s3.dropWhile (fun c => isDigitC c || c = '.'))

/-- Structured-dialect version rewrite, `re.sub` anchored by `^` (at most
one replacement). -/
def nodeVersionSub (ver : Line) (l : Line) : Line :=
  match nodeVersionMatchAt l with
  | some (kept, rest) => kept ++ ver ++ rest
  | none => l

/-- Structured-dialect build-number rewrite, `re.sub(r'(^\s+number:\s*)\d+', r'\g<1>0')`
anchored by `^`. -/
def nodeNumberSub (l : Line) : Line :=
  match numberMatchAt l with
  | some (kept, rest) => kept ++ lit "0" ++ rest
  | none => l

/-- Structured-dialect checksum rewrite,
`re.sub(r'(^\s+sha256:\s*)[a-fA-F0-9]{64}', group ++ digest)` anchored by
`^`. -/
def nodeSha256Sub (digest : Line) (l : Line) : Line :=
  match sha256MatchAt l with
  | some (kept, rest) => kept ++ digest ++ rest
  | none => l

/-- Attempt of `if:\s*unix` at the current position. -/
def tryIfUnixAt (s : Line) : Bool :=
  (do
    let s1 ← stripPre (lit "if:") s
    let _ ← stripPre (lit "unix") (skipWs s1)
    pure ()).isSome

/-- Attempt of `if:\s*target_platform\s*==\s*"<plat>"` at the current
position. -/
def tryIfWinAt (plat : Line) (s : Line) : Bool :=
  (do
    let s1 ← stripPre (lit "if:") s
    let s2 ← stripPre (lit "target_platform") (skipWs s1)
    let s3 ← stripPre (lit "==") (skipWs s2)
    let _ ← stripPre (lit "\"" ++ plat ++ lit "\"") (skipWs s3)
    pure ()).isSome

/-- `re.search`: does the pattern attempt succeed at some position? -/
def searchB (p : Line → Bool) (l : Line) : Bool := l.tails.any p

/-- Processing of one line of the structured scan (the recipe.yaml branch):
the elif chain over version, build-number, the three platform-selector
patterns (which update the scoped `current_platform`), and checksum (only
with a set platform whose digest is present); any other line is copied
through. -/
def nodeScanStep (ver : Line) (hm : Platform → Option Line)
    (p? : Option Platform) (l : Line) : Option Platform × Line :=
  if (nodeVersionMatchAt l).isSome then (p?, nodeVersionSub ver l)
  else if (numberMatchAt l).isSome then (p?, nodeNumberSub l)
  else if searchB tryIfUnixAt l then (some .unix, l)
  else if searchB (tryIfWinAt (lit "win-64")) l then (some .winX64, l)
  else if searchB (tryIfWinAt (lit "win-arm64")) l then (some .winArm64, l)
  else
    match p? with
    | some p =>
      if matchSha256Line l then
        match hm p with
        | some d => (p?, nodeSha256Sub d l)
        | none => (p?, l)
      else (p?, l)
    | none => (p?, l)

/-- The structured line loop carrying the scoped platform state. -/
def nodeScanAux (ver : Line) (hm : Platform → Option Line) :
    Option Platform → List Line → List Line
  | _, [] => []
  | p?, l :: ls =>
    (nodeScanStep ver hm p? l).2 :: nodeScanAux ver hm (nodeScanStep ver hm p? l).1 ls

/-- The `updated_lines` of update_nodejs_releases.update_feedstock for a
recipe.yaml document: `current_platform` starts as `None`. -/
def update_recipe_yaml_lines (ver : Line) (hm : Platform → Option Line)
    (doc : List Line) : List Line :=
  nodeScanAux ver hm none doc

/-- The `current_platform` value after scanning a prefix of the document. -/
def nodePlatAt (ver : Line) (hm : Platform → Option Line) :
    Option Platform → List Line → Option Platform
  | p?, [] => p?
  | p?, l :: ls => nodePlatAt ver hm (nodeScanStep ver hm p? l).1 ls

/-- A line the structured scan classifies as a checksum line: it matches
the sha256 pattern and none of the preceding branches of the elif chain. -/
def nodeChecksumLine (l : Line) : Bool :=
  !(nodeVersionMatchAt l).isSome && !(numberMatchAt l).isSome &&
    !searchB tryIfUnixAt l && !searchB (tryIfWinAt (lit "win-64")) l &&
    !searchB (tryIfWinAt (lit "win-arm64")) l && matchSha256Line l

/-- A line the structured scan classifies as a platform-selector line. -/
def nodeSelectorLine (l : Line) : Bool :=
  !(nodeVersionMatchAt l).isSome && !(numberMatchAt l).isSome &&
    (searchB tryIfUnixAt l || searchB (tryIfWinAt (lit "win-64")) l ||
      searchB (tryIfWinAt (lit "win-arm64")) l)

end CF

namespace CF

/-! ## Basic lemmas about the embedding's primitives -/

theorem stripPre_eq_some {pat s r : Line} :
    stripPre pat s = some r ↔ s = pat ++ r := by
  induction pat generalizing s with
  | nil => simp [stripPre]
  | cons p pt ih =>
    cases s with
    | nil => simp [stripPre]
    | cons c t =>
      by_cases h : p = c
      · subst h
        simp [stripPre, ih]
      · simp [stripPre, h, Ne.symm h]

theorem stripPre_self (pat r : Line) : stripPre pat (pat ++ r) = some r :=
  stripPre_eq_some.mpr rfl

theorem stripPre_head {p : Char} {pt s r : Line} {c : Char} {t : Line}
    (h : stripPre (p :: pt) s = some r) (hs : s = c :: t) : p = c := by
  subst hs
  rw [stripPre_eq_some] at h
  simp only [List.cons_append, List.cons.injEq] at h
  exact h.1.symm

theorem dropWhile_all_append {p : Char → Bool} {w r : Line}
    (hw : ∀ c ∈ w, p c = true) : (w ++ r).dropWhile p = r.dropWhile p := by
  induction w with
  | nil => rfl
  | cons c t ih =>
    have hc : p c = true := hw c (List.mem_cons_self _ _)
    simp only [List.cons_append, List.dropWhile_cons_of_pos hc]
    exact ih (fun x hx => hw x (List.mem_cons_of_mem _ hx))

theorem dropWhile_all_append_neg {p : Char → Bool} {w : Line} {c : Char} {r : Line}
    (hw : ∀ x ∈ w, p x = true) (hc : p c = false) :
    (w ++ c :: r).dropWhile p = c :: r := by
  rw [dropWhile_all_append hw, List.dropWhile_cons_of_neg (by simp [hc])]

theorem takeWhile_all_append_neg {p : Char → Bool} {w : Line} {c : Char} {r : Line}
    (hw : ∀ x ∈ w, p x = true) (hc : p c = false) :
    (w ++ c :: r).takeWhile p = w := by
  induction w with
  | nil => simp [List.takeWhile_cons_of_neg, hc]
  | cons a t ih =>
    have ha : p a = true := hw a (List.mem_cons_self _ _)
    simp only [List.cons_append, List.takeWhile_cons_of_pos ha]
    rw [ih (fun x hx => hw x (List.mem_cons_of_mem _ hx))]

theorem head?_dropWhile_false (p : Char → Bool) (l : Line) {c : Char}
    (h : (l.dropWhile p).head? = some c) : p c = false := by
  induction l with
  | nil => simp [List.dropWhile] at h
  | cons a t ih =>
    by_cases ha : p a
    · rw [List.dropWhile_cons_of_pos ha] at h
      exact ih h
    · rw [List.dropWhile_cons_of_neg ha] at h
      simp only [List.head?_cons, Option.some.injEq] at h
      subst h
      simp only [Bool.not_eq_true] at ha
      exact ha

theorem all_takeWhile (p : Char → Bool) (l : Line) : ∀ c ∈ l.takeWhile p, p c = true := by
  induction l with
  | nil => simp [List.takeWhile]
  | cons a t ih =>
    by_cases ha : p a
    · rw [List.takeWhile_cons_of_pos ha]
      intro c hc
      rcases List.mem_cons.mp hc with h | h
      · subst h; exact ha
      · exact ih c h
    · rw [List.takeWhile_cons_of_neg ha]
      simp

/-! ## Lemmas about the version order -/

theorem verLe_refl (a : List Nat) : verLe a a = true := by
  induction a with
  | nil => rfl
  | cons x t ih => simp [verLe, ih]

theorem verLt_eq_not_verLe : ∀ a b : List Nat, verLt a b = !verLe b a
  | a, [] => by cases a <;> simp [verLt, verLe]
  | [], b :: bs => by
    simp only [verLt, verLe]
    by_cases h : 0 < b <;> simp [h, verLt_eq_not_verLe [] bs]
  | a :: as, b :: bs => by
    simp only [verLt, verLe]
    rcases Nat.lt_trichotomy a b with h | h | h
    · simp [h, Nat.lt_asymm h]
    · subst h
      simp [Nat.lt_irrefl, verLt_eq_not_verLe as bs]
    · simp [h, Nat.lt_asymm h]

theorem verLt_asymm : ∀ {a b : List Nat}, verLt a b = true → verLt b a = true → False := by
  intro a b h1 h2
  induction b generalizing a with
  | nil => simp [verLt] at h1
  | cons y u ihb =>
    cases a with
    | nil => simp [verLt] at h2
    | cons x t =>
      simp only [verLt] at h1 h2
      rcases Nat.lt_trichotomy x y with h | h | h
      · simp [h, Nat.lt_asymm h] at h2
      · subst h
        simp only [Nat.lt_irrefl, if_false] at h1 h2
        exact ihb h1 h2
      · simp [h, Nat.lt_asymm h] at h1

theorem verLe_total (a b : List Nat) : verLe a b = true ∨ verLe b a = true := by
  rcases hb : verLe b a with _ | _
  · left
    rcases hab : verLe a b with _ | _
    · exfalso
      have h1 := verLt_eq_not_verLe a b
      have h2 := verLt_eq_not_verLe b a
      rw [hb] at h1
      rw [hab] at h2
      simp only [Bool.not_false] at h1 h2
      exact verLt_asymm h1 h2
    · rfl
  · right; rfl

theorem verLt_imp_verLe {a b : List Nat} (h : verLt a b = true) :
    verLe a b = true := by
  rcases hab : verLe a b with _ | _
  · exfalso
    have h1 := verLt_eq_not_verLe b a
    rw [hab] at h1
    simp only [Bool.not_false] at h1
    exact verLt_asymm h h1
  · rfl

theorem verLe_nil_right_trans : ∀ a b : List Nat,
    verLe a b = true → verLe b [] = true → verLe a [] = true
  | [], _, _, _ => rfl
  | _ :: _, [], h1, _ => h1
  | a :: as, b :: bs, h1, h2 => by
    simp only [verLe] at h1 h2 ⊢
    by_cases hb : 0 < b
    · exfalso; simp [hb] at h2
    · have hb0 : b = 0 := Nat.eq_zero_of_not_pos hb
      subst hb0
      simp only [Nat.lt_irrefl, if_false] at h2
      by_cases ha : 0 < a
      · exfalso
        simp [Nat.not_lt_zero, ha] at h1
      · have ha0 : a = 0 := Nat.eq_zero_of_not_pos ha
        subst ha0
        simp only [Nat.lt_irrefl, if_false] at h1 ⊢
        exact verLe_nil_right_trans as bs h1 h2

theorem verLe_trans : ∀ a b c : List Nat,
    verLe a b = true → verLe b c = true → verLe a c = true
  | [], _, _, _, _ => rfl
  | a :: as, b, [], h1, h2 => verLe_nil_right_trans (a :: as) b h1 h2
  | a :: as, [], c :: cs, h1, h2 => by
    simp only [verLe] at h1 ⊢
    by_cases ha : 0 < a
    · exfalso; simp [ha] at h1
    · have ha0 : a = 0 := Nat.eq_zero_of_not_pos ha
      subst ha0
      simp only [Nat.lt_irrefl, if_false] at h1 ⊢
      by_cases hc : 0 < c
      · simp [hc]
      · have hc0 : c = 0 := Nat.eq_zero_of_not_pos hc
        subst hc0
        simp only [Nat.lt_irrefl, if_false] at h1 ⊢
        exact verLe_trans as [] cs h1 rfl
  | a :: as, b :: bs, c :: cs, h1, h2 => by
    simp only [verLe] at h1 h2 ⊢
    rcases Nat.lt_trichotomy a b with hab | hab | hab
    · rcases Nat.lt_trichotomy b c with hbc | hbc | hbc
      · simp [Nat.lt_trans hab hbc]
      · subst hbc; simp [hab]
      · exfalso
        simp [hbc, Nat.lt_asymm hbc] at h2
    · subst hab
      simp only [Nat.lt_irrefl, if_false] at h1
      rcases Nat.lt_trichotomy a c with hac | hac | hac
      · simp [hac]
      · subst hac
        simp only [Nat.lt_irrefl, if_false] at h2 ⊢
        exact verLe_trans as bs cs h1 h2
      · exfalso
        simp [hac, Nat.lt_asymm hac] at h2
    · exfalso
      simp [hab, Nat.lt_asymm hab] at h1
  termination_by a b c => a.length + b.length + c.length

end CF

namespace CF

/-! ## C9: document round-trip -/

theorem splitLinesKeepEnds_eq_nil {s : Line} :
    splitLinesKeepEnds s = [] ↔ s = [] := by
  cases s with
  | nil => simp [splitLinesKeepEnds]
  | cons c t =>
    simp only [splitLinesKeepEnds]
    by_cases hc : c = '\n'
    · simp [hc]
    · simp only [hc, if_false]
      rcases h : splitLinesKeepEnds t with _ | ⟨l, ls⟩ <;> simp

/-- C9.  Loading a recipe document with `f.readlines()` (split into lines
keeping each newline terminator) and serializing it back with
`f.writelines` (plain concatenation) with zero replacements reproduces the
input byte-for-byte, for arbitrary content. -/
theorem C9_document_round_trip (s : Line) : joinLines (splitLinesKeepEnds s) = s := by
  induction s with
  | nil => rfl
  | cons c t ih =>
    by_cases hc : c = '\n'
    · subst hc
      have hsplit : splitLinesKeepEnds ('\n' :: t) = ['\n'] :: splitLinesKeepEnds t := by
        simp [splitLinesKeepEnds]
      rw [hsplit]
      simp only [joinLines, List.foldr_cons] at ih ⊢
      rw [ih]
      rfl
    · rcases h : splitLinesKeepEnds t with _ | ⟨l, ls⟩
      · have ht : t = [] := splitLinesKeepEnds_eq_nil.mp h
        subst ht
        have hsplit : splitLinesKeepEnds [c] = [[c]] := by
          simp [splitLinesKeepEnds, hc]
        rw [hsplit]
        rfl
      · have hsplit : splitLinesKeepEnds (c :: t) = (c :: l) :: ls := by
          simp only [splitLinesKeepEnds, hc, if_false, h]
        rw [hsplit]
        rw [h] at ih
        simp only [joinLines, List.foldr_cons] at ih ⊢
        rw [List.cons_append, ih]

/-! ## C3: version gate -/

theorem parseDotted_nil : parseDotted [] = none := rfl

theorem parseDotted_ne_nil {s : Line} {v : List Nat}
    (h : parseDotted s = some v) : s ≠ [] := by
  intro hs
  subst hs
  rw [parseDotted_nil] at h
  exact Option.noConfusion h

/-- C3.  The version gate (feedstock_utils.check_version_needs_update):
an unknown current version always yields proceed; a candidate `a` that is
at most the current version `b` yields skip; against a current version `a`,
a candidate `b` yields proceed exactly when `a < b`. -/
theorem C3_version_gate :
    (∀ nv : Line, check_version_needs_update none nv = some true) ∧
    (∀ sa sb : Line, ∀ va vb : List Nat,
      parseDotted sa = some va → parseDotted sb = some vb → verLe va vb = true →
      check_version_needs_update (some sb) sa = some false) ∧
    (∀ sa sb : Line, ∀ va vb : List Nat,
      parseDotted sa = some va → parseDotted sb = some vb →
      (check_version_needs_update (some sa) sb = some true ↔ verLt va vb = true)) := by
  refine ⟨fun nv => rfl, ?_, ?_⟩
  · intro sa sb va vb ha hb hle
    have hsb : sb ≠ [] := parseDotted_ne_nil hb
    simp only [check_version_needs_update, List.isEmpty_eq_true, hsb, if_false, ha, hb]
    simp [hle]
  · intro sa sb va vb ha hb
    have hsa : sa ≠ [] := parseDotted_ne_nil ha
    simp only [check_version_needs_update, List.isEmpty_eq_true, hsa, if_false, ha, hb]
    rw [verLt_eq_not_verLe]
    constructor
    · intro h
      simp only [Option.some.injEq] at h
      rw [h]
    · intro h
      rw [h]

/-- Witness evaluating the gate at concrete versions through C3_version_gate. -/
theorem C3_version_gate_witness :
    check_version_needs_update none (lit "1.20.14") = some true ∧
    check_version_needs_update (some (lit "1.20.14")) (lit "1.20.13") = some false ∧
    check_version_needs_update (some (lit "1.20.13")) (lit "1.20.14") = some true :=
  ⟨C3_version_gate.1 (lit "1.20.14"),
   C3_version_gate.2.1 (lit "1.20.13") (lit "1.20.14") [1, 20, 13] [1, 20, 14]
     (by decide) (by decide) (by decide),
   (C3_version_gate.2.2 (lit "1.20.13") (lit "1.20.14") [1, 20, 13] [1, 20, 14]
     (by decide) (by decide)).mpr (by decide)⟩

end CF

namespace CF

/-! ## Resolver lemmas -/

theorem alookup_nil {α : Type} (s : Line) : alookup (α := α) s [] = none := rfl

theorem alookup_addToGroup (g : List (Line × List Line)) (k v s : Line) :
    alookup s (addToGroup g k v) =
      if k = s then
        match alookup s g with
        | some vs => some (vs ++ [v])
        | none => some [v]
      else alookup s g := by
  induction g with
  | nil =>
    by_cases h : k = s <;> simp [addToGroup, alookup, h]
  | cons e g ih =>
    obtain ⟨k', vs⟩ := e
    by_cases hk : k' = k
    · subst hk
      by_cases hs : k' = s
      · subst hs
        simp [addToGroup, alookup]
      · simp [addToGroup, alookup, hs]
    · by_cases hs : k' = s
      · subst hs
        have hks : k ≠ k' := fun he => hk he.symm
        simp [addToGroup, alookup, hk, hks]
      · simp [addToGroup, alookup, hk, hs, ih]

theorem matchingVersions_cons (tv : Line → Option Line) (sf : Line → Line)
    (s t : Line) (tags : List Line) :
    matchingVersions tv sf s (t :: tags) =
      (match tv t with
        | none => matchingVersions tv sf s tags
        | some v =>
          match parseDotted v with
          | none => matchingVersions tv sf s tags
          | some _ =>
            if sf v = s then v :: matchingVersions tv sf s tags
            else matchingVersions tv sf s tags) := by
  simp only [matchingVersions, List.filterMap_cons]
  cases htv : tv t with
  | none => simp [matchOne, htv]
  | some v =>
    cases hp : parseDotted v with
    | none => simp [matchOne, htv, hp]
    | some pv =>
      by_cases hs : sf v = s <;> simp [matchOne, htv, hp, hs]

theorem alookup_collect_fold (tv : Line → Option Line) (sf : Line → Line)
    (target : List Line) (s : Line) (hs : s ∈ target) :
    ∀ (tags : List Line) (G : List (Line × List Line)),
      alookup s (List.foldl (collectStep tv sf target) G tags) =
        (match alookup s G with
          | some vs => some (vs ++ matchingVersions tv sf s tags)
          | none =>
            if matchingVersions tv sf s tags = [] then none
            else some (matchingVersions tv sf s tags)) := by
  intro tags
  induction tags with
  | nil =>
    intro G
    cases h : alookup s G <;> simp [matchingVersions, h]
  | cons t tags ih =>
    intro G
    rw [List.foldl_cons, ih, matchingVersions_cons]
    cases htv : tv t with
    | none => simp [collectStep, htv]
    | some v =>
      cases hp : parseDotted v with
      | none => simp [collectStep, htv, hp]
      | some pv =>
        by_cases hsf : sf v = s
        · subst hsf
          simp only [collectStep, htv, hp, if_pos hs, if_pos rfl]
          rw [alookup_addToGroup]
          simp only [if_pos rfl]
          cases hG : alookup (sf v) G with
          | none => simp
          | some vs => simp
        · simp only [collectStep, htv, hp, hsf, if_false]
          by_cases htg : sf v ∈ target
          · simp only [if_pos htg]
            rw [alookup_addToGroup]
            simp [hsf]
          · simp [htg]

theorem alookup_collect_not_target (tv : Line → Option Line) (sf : Line → Line)
    (target : List Line) (s : Line) (hs : s ∉ target) :
    ∀ (tags : List Line) (G : List (Line × List Line)),
      alookup s G = none →
      alookup s (List.foldl (collectStep tv sf target) G tags) = none := by
  intro tags
  induction tags with
  | nil => intro G hG; simpa using hG
  | cons t tags ih =>
    intro G hG
    rw [List.foldl_cons]
    apply ih
    cases htv : tv t with
    | none => simpa [collectStep, htv] using hG
    | some v =>
      cases hp : parseDotted v with
      | none => simpa [collectStep, htv, hp] using hG
      | some pv =>
        by_cases htg : sf v ∈ target
        · have hne : sf v ≠ s := fun he => hs (he ▸ htg)
          simp only [collectStep, htv, hp, if_pos htg]
          rw [alookup_addToGroup, if_neg hne]
          exact hG
        · simpa [collectStep, htv, hp, htg] using hG

theorem alookup_latestBySeries (g : List (Line × List Line)) (s : Line) :
    alookup s (latestBySeries g) = (alookup s g).map maxFirst := by
  induction g with
  | nil => simp [latestBySeries, alookup]
  | cons e g ih =>
    obtain ⟨k, vs⟩ := e
    by_cases hk : k = s
    · subst hk
      simp [latestBySeries, alookup]
    · simp only [latestBySeries, List.map_cons, alookup, hk, if_false]
      exact ih

theorem mem_addToGroup_key (g : List (Line × List Line)) (k v : Line) :
    ∀ e ∈ addToGroup g k v, e.1 = k ∨ ∃ e' ∈ g, e.1 = e'.1 := by
  induction g with
  | nil =>
    intro e he
    simp only [addToGroup, List.mem_singleton] at he
    subst he
    exact Or.inl rfl
  | cons f g ih =>
    obtain ⟨k', vs⟩ := f
    intro e he
    by_cases hk : k' = k
    · subst hk
      rw [show addToGroup ((k', vs) :: g) k' v = (k', vs ++ [v]) :: g from by
        simp [addToGroup]] at he
      rcases List.mem_cons.mp he with h | h
      · subst h
        exact Or.inl rfl
      · exact Or.inr ⟨e, List.mem_cons_of_mem _ h, rfl⟩
    · rw [show addToGroup ((k', vs) :: g) k v = (k', vs) :: addToGroup g k v from by
        simp [addToGroup, hk]] at he
      rcases List.mem_cons.mp he with h | h
      · subst h
        exact Or.inr ⟨(k', vs), List.mem_cons_self _ _, rfl⟩
      · rcases ih e h with h2 | ⟨e', he', hee⟩
        · exact Or.inl h2
        · exact Or.inr ⟨e', List.mem_cons_of_mem _ he', hee⟩

theorem collect_keys_target (tv : Line → Option Line) (sf : Line → Line)
    (target : List Line) :
    ∀ (tags : List Line) (G : List (Line × List Line)),
      (∀ e ∈ G, e.1 ∈ target) →
      ∀ e ∈ List.foldl (collectStep tv sf target) G tags, e.1 ∈ target := by
  intro tags
  induction tags with
  | nil => intro G hG; simpa using hG
  | cons t tags ih =>
    intro G hG
    rw [List.foldl_cons]
    apply ih
    intro e he
    cases htv : tv t with
    | none =>
      simp only [collectStep, htv] at he
      exact hG e he
    | some v =>
      cases hp : parseDotted v with
      | none =>
        simp only [collectStep, htv, hp] at he
        exact hG e he
      | some pv =>
        by_cases htg : sf v ∈ target
        · simp only [collectStep, htv, hp, if_pos htg] at he
          rcases mem_addToGroup_key _ _ _ e he with h | ⟨e', he', hee⟩
          · rw [h]; exact htg
          · rw [hee]; exact hG e' he'
        · simp only [collectStep, htv, hp, htg, if_false] at he
          exact hG e he

theorem exists_tag_of_mem_matching {tv : Line → Option Line} {sf : Line → Line}
    {s : Line} {tags : List Line} {v : Line}
    (h : v ∈ matchingVersions tv sf s tags) : ∃ t ∈ tags, tv t = some v := by
  unfold matchingVersions at h
  rw [List.mem_filterMap] at h
  obtain ⟨t, ht, hf⟩ := h
  refine ⟨t, ht, ?_⟩
  cases htv : tv t with
  | none => simp [matchOne, htv] at hf
  | some v' =>
    cases hp : parseDotted v' with
    | none => simp [matchOne, htv, hp] at hf
    | some pv =>
      by_cases hsf : sf v' = s
      · simp only [matchOne, htv, hp, if_pos hsf, Option.some.injEq] at hf
        rw [hf]
      · simp [matchOne, htv, hp, hsf] at hf

theorem maxByVer_spec (vs : List Line) (best : Line) :
    (maxByVer vs best = best ∨ maxByVer vs best ∈ vs) ∧
    verLe (parseDottedD best) (parseDottedD (maxByVer vs best)) = true ∧
    ∀ w ∈ vs, verLe (parseDottedD w) (parseDottedD (maxByVer vs best)) = true := by
  induction vs generalizing best with
  | nil => exact ⟨Or.inl rfl, verLe_refl _, by simp⟩
  | cons v vs ih =>
    have hstep : maxByVer (v :: vs) best =
        maxByVer vs (if verLt (parseDottedD best) (parseDottedD v) then v else best) := by
      simp [maxByVer]
    by_cases hlt : verLt (parseDottedD best) (parseDottedD v) = true
    · rw [hstep, if_pos hlt]
      obtain ⟨hm, hle, hall⟩ := ih v
      refine ⟨?_, ?_, ?_⟩
      · rcases hm with h | h
        · exact Or.inr (List.mem_cons.mpr (Or.inl h))
        · exact Or.inr (List.mem_cons_of_mem _ h)
      · exact verLe_trans _ _ _ (verLt_imp_verLe hlt) hle
      · intro w hw
        rcases List.mem_cons.mp hw with h | h
        · subst h; exact hle
        · exact hall w h
    · rw [hstep, if_neg hlt]
      obtain ⟨hm, hle, hall⟩ := ih best
      refine ⟨?_, hle, ?_⟩
      · rcases hm with h | h
        · exact Or.inl h
        · exact Or.inr (List.mem_cons_of_mem _ h)
      · intro w hw
        rcases List.mem_cons.mp hw with h | h
        · subst h
          have hvb : verLe (parseDottedD w) (parseDottedD best) = true := by
            have := verLt_eq_not_verLe (parseDottedD best) (parseDottedD w)
            rcases hwb : verLe (parseDottedD w) (parseDottedD best) with _ | _
            · rw [hwb] at this
              simp only [Bool.not_false] at this
              exact absurd this hlt
            · rfl
          exact verLe_trans _ _ _ hvb hle
        · exact hall w h

theorem maxFirst_mem {vs : List Line} (h : vs ≠ []) : maxFirst vs ∈ vs := by
  cases vs with
  | nil => exact absurd rfl h
  | cons v vs =>
    have heq : maxFirst (v :: vs) = maxByVer vs v := rfl
    rw [heq]
    rcases (maxByVer_spec vs v).1 with h1 | h1
    · exact List.mem_cons.mpr (Or.inl h1)
    · exact List.mem_cons_of_mem _ h1

theorem maxFirst_max {vs : List Line} {w : Line} (hw : w ∈ vs) :
    verLe (parseDottedD w) (parseDottedD (maxFirst vs)) = true := by
  cases vs with
  | nil => simp at hw
  | cons v vs =>
    obtain ⟨_, hle, hall⟩ := maxByVer_spec vs v
    rcases List.mem_cons.mp hw with h | h
    · subst h; exact hle
    · exact hall w h

theorem maxFirst_eq_of_perm {vs vs' : List Line} (hperm : vs.Perm vs')
    (htie : ∀ v w, v ∈ vs → w ∈ vs → verEq (parseDottedD v) (parseDottedD w) = true → v = w) :
    maxFirst vs = maxFirst vs' := by
  cases vs with
  | nil =>
    have : vs' = [] := hperm.symm.eq_nil
    rw [this]
  | cons v0 t0 =>
    have hne : (v0 :: t0) ≠ ([] : List Line) := by simp
    have hne' : vs' ≠ [] := by
      intro h
      rw [h] at hperm
      exact hne hperm.eq_nil
    have hm := maxFirst_mem hne
    have hm' := maxFirst_mem hne'
    have hm'mem : maxFirst vs' ∈ v0 :: t0 := hperm.mem_iff.mpr hm'
    have hmmem' : maxFirst (v0 :: t0) ∈ vs' := hperm.mem_iff.mp hm
    have h1 : verLe (parseDottedD (maxFirst (v0 :: t0))) (parseDottedD (maxFirst vs')) = true :=
      maxFirst_max hmmem'
    have h2 : verLe (parseDottedD (maxFirst vs')) (parseDottedD (maxFirst (v0 :: t0))) = true :=
      maxFirst_max hm'mem
    exact htie _ _ hm hm'mem (by simp [verEq, h1, h2])

end CF

namespace CF

/-- Key fact shared by both resolvers: permuting the tag list does not
change the candidate map, provided no two distinct matching version strings
parse to padding-equal release tuples. -/
theorem resolver_perm_general (tv : Line → Option Line) (sf : Line → Line)
    (target : List Line) {tags tags' : List Line} (hperm : tags.Perm tags')
    (htie : ∀ t1 t2 v1 v2 : Line, t1 ∈ tags → t2 ∈ tags → tv t1 = some v1 →
      tv t2 = some v2 → verEq (parseDottedD v1) (parseDottedD v2) = true → v1 = v2)
    (s : Line) :
    alookup s (latestBySeries (collectTags tv sf target tags)) =
      alookup s (latestBySeries (collectTags tv sf target tags')) := by
  rw [alookup_latestBySeries, alookup_latestBySeries]
  by_cases hst : s ∈ target
  · rw [show collectTags tv sf target tags =
        List.foldl (collectStep tv sf target) [] tags from rfl,
      show collectTags tv sf target tags' =
        List.foldl (collectStep tv sf target) [] tags' from rfl,
      alookup_collect_fold tv sf target s hst tags [],
      alookup_collect_fold tv sf target s hst tags' []]
    simp only [alookup_nil]
    have hpm : (matchingVersions tv sf s tags).Perm (matchingVersions tv sf s tags') :=
      hperm.filterMap _
    by_cases hm : matchingVersions tv sf s tags = []
    · have hm' : matchingVersions tv sf s tags' = [] := by
        rw [hm] at hpm
        exact hpm.symm.eq_nil
      simp [hm, hm']
    · have hm' : matchingVersions tv sf s tags' ≠ [] := by
        intro h
        rw [h] at hpm
        exact hm hpm.eq_nil
      rw [if_neg hm, if_neg hm']
      have heq : maxFirst (matchingVersions tv sf s tags) =
          maxFirst (matchingVersions tv sf s tags') := by
        apply maxFirst_eq_of_perm hpm
        intro a b ha hb hab
        obtain ⟨t1, ht1, htv1⟩ := exists_tag_of_mem_matching ha
        obtain ⟨t2, ht2, htv2⟩ := exists_tag_of_mem_matching hb
        exact htie t1 t2 a b ht1 ht2 htv1 htv2 hab
      rw [Option.map_some', Option.map_some', heq]
  · rw [show collectTags tv sf target tags =
        List.foldl (collectStep tv sf target) [] tags from rfl,
      show collectTags tv sf target tags' =
        List.foldl (collectStep tv sf target) [] tags' from rfl,
      alookup_collect_not_target tv sf target s hst tags [] rfl,
      alookup_collect_not_target tv sf target s hst tags' [] rfl]

/-- C4.  Resolver correctness: the concrete example from the specification;
every key of the candidate map is a tracked series; tags that do not match
the pattern contribute nothing; a tracked series with no matching tag is
absent from the map (never an error); and the value of each key is a
matching version of that series whose parsed release tuple is maximal among
the series' matching tags. -/
theorem C4_resolver_correctness :
    (get_go_versions_by_minor_series [lit "1.20", lit "1.21"]
        [lit "go1.20.1", lit "go1.20.14", lit "go1.21.0", lit "notgo1.99.0"] =
      [(lit "1.20", lit "1.20.14"), (lit "1.21", lit "1.21.0")]) ∧
    (∀ target tags : List Line, ∀ e ∈ get_go_versions_by_minor_series target tags,
      e.1 ∈ target) ∧
    (∀ target pre post : List Line, ∀ t : Line, goTagVersion t = none →
      get_go_versions_by_minor_series target (pre ++ t :: post) =
        get_go_versions_by_minor_series target (pre ++ post)) ∧
    (∀ target tags : List Line, ∀ s ∈ target,
      matchingVersions goTagVersion seriesOf s tags = [] →
      alookup s (get_go_versions_by_minor_series target tags) = none) ∧
    (∀ target tags : List Line, ∀ s v : Line,
      alookup s (get_go_versions_by_minor_series target tags) = some v →
      v ∈ matchingVersions goTagVersion seriesOf s tags ∧
        ∀ w ∈ matchingVersions goTagVersion seriesOf s tags,
          verLe (parseDottedD w) (parseDottedD v) = true) := by
  refine ⟨by decide, ?_, ?_, ?_, ?_⟩
  · intro target tags e he
    unfold get_go_versions_by_minor_series latestBySeries at he
    rcases List.mem_map.mp he with ⟨g, hg, rfl⟩
    exact collect_keys_target goTagVersion seriesOf target tags [] (by simp) g hg
  · intro target pre post t ht
    unfold get_go_versions_by_minor_series
    congr 1
    unfold collectTags
    rw [List.foldl_append, List.foldl_append, List.foldl_cons]
    congr 1
    simp [collectStep, ht]
  · intro target tags s hs hmv
    unfold get_go_versions_by_minor_series
    rw [alookup_latestBySeries,
      show collectTags goTagVersion seriesOf target tags =
        List.foldl (collectStep goTagVersion seriesOf target) [] tags from rfl,
      alookup_collect_fold goTagVersion seriesOf target s hs tags []]
    simp [alookup_nil, hmv]
  · intro target tags s v hv
    by_cases hst : s ∈ target
    · rw [get_go_versions_by_minor_series, alookup_latestBySeries,
        show collectTags goTagVersion seriesOf target tags =
          List.foldl (collectStep goTagVersion seriesOf target) [] tags from rfl,
        alookup_collect_fold goTagVersion seriesOf target s hst tags []] at hv
      simp only [alookup_nil] at hv
      by_cases hm : matchingVersions goTagVersion seriesOf s tags = []
      · rw [if_pos hm] at hv
        exact absurd hv (by simp)
      · rw [if_neg hm, Option.map_some'] at hv
        have hv' : maxFirst (matchingVersions goTagVersion seriesOf s tags) = v :=
          Option.some.inj hv
        subst hv'
        exact ⟨maxFirst_mem hm, fun w hw => maxFirst_max hw⟩
    · exfalso
      rw [get_go_versions_by_minor_series, alookup_latestBySeries,
        show collectTags goTagVersion seriesOf target tags =
          List.foldl (collectStep goTagVersion seriesOf target) [] tags from rfl,
        alookup_collect_not_target goTagVersion seriesOf target s hst tags [] rfl] at hv
      exact absurd hv (by simp)

/-- Witness applying C4_resolver_correctness at concrete inputs: the
non-matching tag `notgo1.99.0` is dropped, and the selected value is a
matching version of its series. -/
theorem C4_resolver_correctness_witness :
    get_go_versions_by_minor_series [lit "1.20"]
        ([lit "go1.20.1"] ++ lit "notgo1.99.0" :: []) =
      get_go_versions_by_minor_series [lit "1.20"] ([lit "go1.20.1"] ++ []) ∧
    lit "1.20.14" ∈ matchingVersions goTagVersion seriesOf (lit "1.20")
      [lit "go1.20.1", lit "go1.20.14"] :=
  ⟨C4_resolver_correctness.2.2.1 [lit "1.20"] [lit "go1.20.1"] []
      (lit "notgo1.99.0") (by decide),
   (C4_resolver_correctness.2.2.2.2 [lit "1.20"] [lit "go1.20.1", lit "go1.20.14"]
      (lit "1.20") (lit "1.20.14") (by decide)).1⟩

/-- Counterexample to C5 as stated: two tags with distinct version strings
but padding-equal parsed versions (`1.0.1` and `1.0.01`); Python `max`
keeps the first maximal element, so permuting the tag list changes which
string the candidate map stores for the series. -/
theorem C5_resolver_determinism_counterexample :
    List.Perm [lit "go1.0.1", lit "go1.0.01"] [lit "go1.0.01", lit "go1.0.1"] ∧
    alookup (lit "1.0") (get_go_versions_by_minor_series [lit "1.0"]
      [lit "go1.0.1", lit "go1.0.01"]) = some (lit "1.0.1") ∧
    alookup (lit "1.0") (get_go_versions_by_minor_series [lit "1.0"]
      [lit "go1.0.01", lit "go1.0.1"]) = some (lit "1.0.01") ∧
    lit "1.0.1" ≠ lit "1.0.01" :=
  ⟨List.Perm.swap (lit "go1.0.01") (lit "go1.0.1") [], by decide, by decide, by decide⟩

/-- C5 amended.  For every permutation of the tag list, each resolver
produces the same candidate map (as a key-to-value mapping), provided no
two distinct matching version strings parse to padding-equal release
tuples (as the specification assumes when it states that ties cannot
occur). -/
theorem C5_resolver_determinism_amended :
    (∀ tags tags' : List Line, tags.Perm tags' →
      (∀ t1 t2 v1 v2 : Line, t1 ∈ tags → t2 ∈ tags → goTagVersion t1 = some v1 →
        goTagVersion t2 = some v2 →
        verEq (parseDottedD v1) (parseDottedD v2) = true → v1 = v2) →
      ∀ (target : List Line) (s : Line),
        alookup s (get_go_versions_by_minor_series target tags) =
          alookup s (get_go_versions_by_minor_series target tags')) ∧
    (∀ tags tags' : List Line, tags.Perm tags' →
      (∀ t1 t2 v1 v2 : Line, t1 ∈ tags → t2 ∈ tags → nodeTagVersion t1 = some v1 →
        nodeTagVersion t2 = some v2 →
        verEq (parseDottedD v1) (parseDottedD v2) = true → v1 = v2) →
      ∀ (target : List Line) (s : Line),
        alookup s (get_nodejs_versions_by_minor_series target tags) =
          alookup s (get_nodejs_versions_by_minor_series target tags')) :=
  ⟨fun _ _ hp ht target s => resolver_perm_general goTagVersion seriesOf target hp ht s,
   fun _ _ hp ht target s => resolver_perm_general nodeTagVersion majorOf target hp ht s⟩

/-- Witness applying C5_resolver_determinism_amended to a concrete
permutation of a tie-free tag list. -/
theorem C5_resolver_determinism_amended_witness :
    alookup (lit "1.20") (get_go_versions_by_minor_series [lit "1.20"]
      [lit "go1.20.1", lit "x"]) =
    alookup (lit "1.20") (get_go_versions_by_minor_series [lit "1.20"]
      [lit "x", lit "go1.20.1"]) :=
  C5_resolver_determinism_amended.1 [lit "go1.20.1", lit "x"] [lit "x", lit "go1.20.1"]
    (List.Perm.swap (lit "x") (lit "go1.20.1") [])
    (by
      intro t1 t2 v1 v2 h1 h2 hv1 hv2 _
      have e1 : t1 = lit "go1.20.1" ∨ t1 = lit "x" := by simpa using h1
      have e2 : t2 = lit "go1.20.1" ∨ t2 = lit "x" := by simpa using h2
      have hx : goTagVersion (lit "x") = none := by decide
      have hg : goTagVersion (lit "go1.20.1") = some (lit "1.20.1") := by decide
      rcases e1 with rfl | rfl
      · rcases e2 with rfl | rfl
        · rw [hg] at hv1 hv2
          rw [← Option.some.inj hv1, ← Option.some.inj hv2]
        · rw [hx] at hv2
          exact absurd hv2 (by simp)
      · rw [hx] at hv1
        exact absurd hv1 (by simp))
    [lit "1.20"] (lit "1.20")

end CF

namespace CF

/-! ## Matcher decomposition and classifier disjointness -/

theorem isPySpace_not_digit {c : Char} (h : isPySpace c = true) : isDigitC c = false := by
  unfold isPySpace at h
  simp only [Bool.or_eq_true, decide_eq_true_eq] at h
  rcases h with ((((h | h) | h) | h) | h) | h <;> subst h <;> decide

theorem takeWhile_nil_of_head {p : Char → Bool} {X : Line}
    (h : ∀ c, X.head? = some c → p c = false) : X.takeWhile p = [] := by
  cases X with
  | nil => rfl
  | cons c t =>
    have hc : p c = false := h c rfl
    simp [List.takeWhile_cons_of_neg, hc]

theorem numberMatchAt_some {s kept rest : Line}
    (h : numberMatchAt s = some (kept, rest)) :
    ∃ w u d : Line,
      s = w ++ lit "number:" ++ u ++ d ++ rest ∧
      kept = w ++ lit "number:" ++ u ∧
      w ≠ [] ∧ (∀ c ∈ w, isPySpace c = true) ∧ (∀ c ∈ u, isPySpace c = true) ∧
      d ≠ [] ∧ (∀ c ∈ d, isDigitC c = true) ∧
      (∀ c, rest.head? = some c → isDigitC c = false) := by
  simp only [numberMatchAt] at h
  split at h
  · exact absurd h (by simp)
  · rename_i hw
    split at h
    · exact absurd h (by simp)
    · rename_i s2 hsp
      split at h
      · exact absurd h (by simp)
      · rename_i hd
        simp only [Option.some.injEq, Prod.mk.injEq] at h
        obtain ⟨hkept, hrest⟩ := h
        refine ⟨s.takeWhile isPySpace, s2.takeWhile isPySpace,
          (s2.dropWhile isPySpace).takeWhile isDigitC, ?_, hkept.symm, ?_, ?_, ?_, ?_, ?_, ?_⟩
        · have h1 : s = s.takeWhile isPySpace ++ s.dropWhile isPySpace :=
            (List.takeWhile_append_dropWhile ..).symm
          have h2 : s.dropWhile isPySpace = lit "number:" ++ s2 := stripPre_eq_some.mp hsp
          have h3 : s2 = s2.takeWhile isPySpace ++ s2.dropWhile isPySpace :=
            (List.takeWhile_append_dropWhile ..).symm
          have h4 : s2.dropWhile isPySpace =
              (s2.dropWhile isPySpace).takeWhile isDigitC ++
                (s2.dropWhile isPySpace).dropWhile isDigitC :=
            (List.takeWhile_append_dropWhile ..).symm
          rw [hrest] at h4
          conv_lhs => rw [h1, h2, h3, h4]
          simp [List.append_assoc]
        · simpa using hw
        · exact all_takeWhile _ _
        · exact all_takeWhile _ _
        · simpa using hd
        · exact all_takeWhile _ _
        · intro c hc
          rw [← hrest] at hc
          exact head?_dropWhile_false _ _ hc

theorem numberMatchAt_shrinks {s kept rest : Line}
    (h : numberMatchAt s = some (kept, rest)) : rest.length < s.length := by
  obtain ⟨w, u, d, hs, _, hw, _, _, hd, _, _⟩ := numberMatchAt_some h
  rw [hs]
  cases w with
  | nil => exact absurd rfl hw
  | cons c t => simp [List.length_append]; omega

/-- Head of the line after the leading whitespace run, for each matcher. -/
theorem stripPre_head? {p : Char} {pt s r : Line}
    (h : stripPre (p :: pt) s = some r) : s.head? = some p := by
  rw [stripPre_eq_some.mp h]
  rfl

theorem numberMatchAt_skipWs_head {s : Line} (h : (numberMatchAt s).isSome = true) :
    (s.dropWhile isPySpace).head? = some 'n' := by
  rw [Option.isSome_iff_exists] at h
  obtain ⟨⟨kept, rest⟩, h⟩ := h
  simp only [numberMatchAt] at h
  by_cases hw : (s.takeWhile isPySpace).isEmpty
  · rw [if_pos hw] at h; exact absurd h (by simp)
  · rw [if_neg hw] at h
    cases hsp : stripPre (lit "number:") (s.dropWhile isPySpace) with
    | none => rw [hsp] at h; exact absurd h (by simp)
    | some s2 => exact stripPre_head? (p := 'n') hsp

theorem sha256MatchAt_skipWs_head {s : Line} (h : (sha256MatchAt s).isSome = true) :
    (s.dropWhile isPySpace).head? = some 's' := by
  rw [Option.isSome_iff_exists] at h
  obtain ⟨⟨kept, rest⟩, h⟩ := h
  simp only [sha256MatchAt] at h
  by_cases hw : (s.takeWhile isPySpace).isEmpty
  · rw [if_pos hw] at h; exact absurd h (by simp)
  · rw [if_neg hw] at h
    cases hsp : stripPre (lit "sha256:") (s.dropWhile isPySpace) with
    | none => rw [hsp] at h; exact absurd h (by simp)
    | some s2 => exact stripPre_head? (p := 's') hsp

theorem nodeVersionMatchAt_skipWs_head {s : Line}
    (h : (nodeVersionMatchAt s).isSome = true) :
    (s.dropWhile isPySpace).head? = some 'v' := by
  rw [Option.isSome_iff_exists] at h
  obtain ⟨⟨kept, rest⟩, h⟩ := h
  simp only [nodeVersionMatchAt] at h
  cases hsp : stripPre (lit "version:") (s.dropWhile isPySpace) with
  | none => rw [hsp] at h; exact absurd h (by simp)
  | some s2 => exact stripPre_head? (p := 'v') hsp

theorem matchSetVersion_skipWs_head {l : Line} (h : matchSetVersion l = true) :
    (l.dropWhile isPySpace).head? = some '\x7b' := by
  unfold matchSetVersion at h
  cases hsp : stripPre (lit "\x7b%") (skipWs l) with
  | none =>
    rw [hsp] at h
    simp at h
  | some s1 => exact stripPre_head? (p := '\x7b') hsp

theorem matchSetVersion_of_number {l : Line} (h : matchNumberLine l = true) :
    matchSetVersion l = false := by
  rcases hv : matchSetVersion l with _ | _
  · rfl
  · have h1 := numberMatchAt_skipWs_head h
    have h2 := matchSetVersion_skipWs_head hv
    rw [h1] at h2
    exact absurd (Option.some.inj h2) (by decide)

theorem matchSetVersion_of_sha256 {l : Line} (h : matchSha256Line l = true) :
    matchSetVersion l = false := by
  rcases hv : matchSetVersion l with _ | _
  · rfl
  · have h1 := sha256MatchAt_skipWs_head h
    have h2 := matchSetVersion_skipWs_head hv
    rw [h1] at h2
    exact absurd (Option.some.inj h2) (by decide)

theorem matchNumberLine_of_sha256 {l : Line} (h : matchSha256Line l = true) :
    matchNumberLine l = false := by
  rcases hn : matchNumberLine l with _ | _
  · rfl
  · have h1 := sha256MatchAt_skipWs_head h
    have h2 := numberMatchAt_skipWs_head hn
    rw [h1] at h2
    exact absurd (Option.some.inj h2) (by decide)

theorem nodeVersion_of_number {l : Line} (h : matchNumberLine l = true) :
    (nodeVersionMatchAt l).isSome = false := by
  rcases hv : (nodeVersionMatchAt l).isSome with _ | _
  · rfl
  · have h1 := numberMatchAt_skipWs_head h
    have h2 := nodeVersionMatchAt_skipWs_head hv
    rw [h1] at h2
    exact absurd (Option.some.inj h2) (by decide)

theorem nodeVersion_of_sha256 {l : Line} (h : matchSha256Line l = true) :
    (nodeVersionMatchAt l).isSome = false := by
  rcases hv : (nodeVersionMatchAt l).isSome with _ | _
  · rfl
  · have h1 := sha256MatchAt_skipWs_head h
    have h2 := nodeVersionMatchAt_skipWs_head hv
    rw [h1] at h2
    exact absurd (Option.some.inj h2) (by decide)

end CF

namespace CF

/-! ## Scan index lemmas -/

theorem updateMetaYamlAux_get? (ver : Line) (hm : List (Line × Line)) (doc : List Line) :
    ∀ (ls : List Line) (i0 i : Nat) (l : Line), ls.get? i = some l →
      (updateMetaYamlAux ver hm doc i0 ls).get? i =
        some (update_meta_yaml_line ver hm doc (i0 + i) l) := by
  intro ls
  induction ls with
  | nil => intro i0 i l h; simp at h
  | cons l0 ls ih =>
    intro i0 i l h
    cases i with
    | zero =>
      rw [List.get?_cons_zero] at h
      injection h with h
      subst h
      rw [show updateMetaYamlAux ver hm doc i0 (l0 :: ls) =
        update_meta_yaml_line ver hm doc i0 l0 :: updateMetaYamlAux ver hm doc (i0 + 1) ls
        from rfl]
      rw [List.get?_cons_zero, Nat.add_zero]
    | succ i =>
      rw [List.get?_cons_succ] at h
      rw [show updateMetaYamlAux ver hm doc i0 (l0 :: ls) =
        update_meta_yaml_line ver hm doc i0 l0 :: updateMetaYamlAux ver hm doc (i0 + 1) ls
        from rfl]
      rw [List.get?_cons_succ, ih (i0 + 1) i l h]
      have harith : i0 + 1 + i = i0 + (i + 1) := by omega
      rw [harith]

theorem update_meta_yaml_lines_get? {ver : Line} {hm : List (Line × Line)}
    {doc : List Line} {i : Nat} {l : Line} (h : doc.get? i = some l) :
    (update_meta_yaml_lines ver hm doc).get? i =
      some (update_meta_yaml_line ver hm doc i l) := by
  have := updateMetaYamlAux_get? ver hm doc doc 0 i l h
  simpa using this

theorem updateMetaYamlAux_length (ver : Line) (hm : List (Line × Line)) (doc : List Line) :
    ∀ (ls : List Line) (i0 : Nat), (updateMetaYamlAux ver hm doc i0 ls).length = ls.length := by
  intro ls
  induction ls with
  | nil => intro i0; rfl
  | cons l0 ls ih =>
    intro i0
    rw [show updateMetaYamlAux ver hm doc i0 (l0 :: ls) =
      update_meta_yaml_line ver hm doc i0 l0 :: updateMetaYamlAux ver hm doc (i0 + 1) ls
      from rfl]
    simp [ih]

theorem nodeScanAux_get? (ver : Line) (hm : Platform → Option Line) :
    ∀ (ls : List Line) (p? : Option Platform) (i : Nat) (l : Line), ls.get? i = some l →
      (nodeScanAux ver hm p? ls).get? i =
        some ((nodeScanStep ver hm (nodePlatAt ver hm p? (ls.take i)) l).2) := by
  intro ls
  induction ls with
  | nil => intro p? i l h; simp at h
  | cons l0 ls ih =>
    intro p? i l h
    cases i with
    | zero =>
      rw [List.get?_cons_zero] at h
      injection h with h
      subst h
      rfl
    | succ i =>
      rw [List.get?_cons_succ] at h
      rw [show nodeScanAux ver hm p? (l0 :: ls) =
        (nodeScanStep ver hm p? l0).2 :: nodeScanAux ver hm (nodeScanStep ver hm p? l0).1 ls
        from rfl]
      rw [List.get?_cons_succ, ih (nodeScanStep ver hm p? l0).1 i l h]
      rfl

theorem nodeScanAux_length (ver : Line) (hm : Platform → Option Line) :
    ∀ (ls : List Line) (p? : Option Platform), (nodeScanAux ver hm p? ls).length = ls.length := by
  intro ls
  induction ls with
  | nil => intro p?; rfl
  | cons l0 ls ih =>
    intro p?
    rw [show nodeScanAux ver hm p? (l0 :: ls) =
      (nodeScanStep ver hm p? l0).2 :: nodeScanAux ver hm (nodeScanStep ver hm p? l0).1 ls
      from rfl]
    simp [ih]

end CF

namespace CF

/-! ## Build-number substitution lemmas -/

theorem readNumber_ws_number (w' u X : Line) (c : Char)
    (hc : isPySpace c = true)
    (hw' : ∀ x ∈ w', isPySpace x = true)
    (hu : ∀ x ∈ u, isPySpace x = true)
    (hX : ∀ ch, X.head? = some ch → isDigitC ch = false) :
    readNumber (c :: (w' ++ (lit "number:" ++ (u ++ ('0' :: X))))) = some 0 := by
  have h1 : expectWs1 (c :: (w' ++ (lit "number:" ++ (u ++ ('0' :: X))))) =
      some (lit "number:" ++ (u ++ ('0' :: X))) := by
    simp only [expectWs1, hc, if_true]
    rw [dropWhile_all_append hw']
    have hcons : lit "number:" ++ (u ++ ('0' :: X)) =
        'n' :: (lit "umber:" ++ (u ++ ('0' :: X))) := rfl
    rw [hcons, List.dropWhile_cons_of_neg (by decide)]
  have h2 : stripPre (lit "number:") (lit "number:" ++ (u ++ ('0' :: X))) =
      some (u ++ ('0' :: X)) := stripPre_self _ _
  have h3 : skipWs (u ++ ('0' :: X)) = '0' :: X :=
    dropWhile_all_append_neg hu (by decide)
  have h4 : ('0' :: X).takeWhile isDigitC = ['0'] := by
    rw [List.takeWhile_cons_of_pos (by decide), takeWhile_nil_of_head hX]
  unfold readNumber
  rw [h1]
  simp only [Option.bind_eq_bind, Option.some_bind]
  rw [h2]
  simp only [Option.some_bind, h3, h4]
  decide

theorem subAllF_number_head :
    ∀ (f : Nat) (r : Line), (∀ c, r.head? = some c → isDigitC c = false) →
      ∀ c, (subAllF numberMatchAt (lit "0") f r).head? = some c → isDigitC c = false := by
  intro f
  induction f with
  | zero => intro r hr c hc; exact hr c hc
  | succ f ih =>
    intro r hr c hc
    cases r with
    | nil => simp [subAllF] at hc
    | cons a t =>
      cases hma : numberMatchAt (a :: t) with
      | none =>
        rw [show subAllF numberMatchAt (lit "0") (f + 1) (a :: t) =
            a :: subAllF numberMatchAt (lit "0") f t from by simp [subAllF, hma]] at hc
        exact (by simpa using hc : a = c) ▸ hr a rfl
      | some kr =>
        obtain ⟨kept, rest⟩ := kr
        obtain ⟨w, u, d, hs, hkept, hwne, hwall, _, _, _, _⟩ := numberMatchAt_some hma
        by_cases hlen : rest.length ≤ t.length
        · rw [show subAllF numberMatchAt (lit "0") (f + 1) (a :: t) =
              kept ++ lit "0" ++ subAllF numberMatchAt (lit "0") f rest from by
            simp [subAllF, hma, hlen]] at hc
          obtain ⟨c0, w'', rfl⟩ : ∃ c0 w'', w = c0 :: w'' := by
            cases w with
            | nil => exact absurd rfl hwne
            | cons c0 w'' => exact ⟨c0, w'', rfl⟩
          rw [hkept] at hc
          exact (by simpa using hc : c0 = c) ▸
            isPySpace_not_digit (hwall c0 (List.mem_cons_self _ _))
        · rw [show subAllF numberMatchAt (lit "0") (f + 1) (a :: t) =
              a :: subAllF numberMatchAt (lit "0") f t from by
            simp [subAllF, hma, hlen]] at hc
          exact (by simpa using hc : a = c) ▸ hr a rfl

theorem readNumber_subGoNumber {l : Line} (h : matchNumberLine l = true) :
    readNumber (subGoNumber l) = some 0 := by
  unfold matchNumberLine at h
  rw [Option.isSome_iff_exists] at h
  obtain ⟨⟨kept, rest⟩, hma⟩ := h
  obtain ⟨w, u, d, hs, hkept, hwne, hwall, hu, hdne, hdall, hrest⟩ := numberMatchAt_some hma
  obtain ⟨c0, w', rfl⟩ : ∃ c0 w', w = c0 :: w' := by
    cases w with
    | nil => exact absurd rfl hwne
    | cons c0 w' => exact ⟨c0, w', rfl⟩
  have hshr : rest.length < l.length := numberMatchAt_shrinks hma
  have hl : l = c0 :: (w' ++ lit "number:" ++ u ++ d ++ rest) := by
    rw [hs]; simp
  have hlen : l.length = (w' ++ lit "number:" ++ u ++ d ++ rest).length + 1 := by
    rw [hl]; rfl
  have hguard : rest.length ≤ (w' ++ lit "number:" ++ u ++ d ++ rest).length := by
    rw [hlen] at hshr
    omega
  rw [hl] at hma
  have hout : subGoNumber l =
      kept ++ lit "0" ++
        subAllF numberMatchAt (lit "0") (w' ++ lit "number:" ++ u ++ d ++ rest).length rest := by
    unfold subGoNumber subAll
    rw [hlen, hl]
    have e1 : subAllF numberMatchAt (lit "0")
        ((w' ++ lit "number:" ++ u ++ d ++ rest).length + 1)
        (c0 :: (w' ++ lit "number:" ++ u ++ d ++ rest)) =
        if rest.length ≤ (w' ++ lit "number:" ++ u ++ d ++ rest).length then
          kept ++ lit "0" ++
            subAllF numberMatchAt (lit "0") (w' ++ lit "number:" ++ u ++ d ++ rest).length rest
        else c0 :: subAllF numberMatchAt (lit "0")
          (w' ++ lit "number:" ++ u ++ d ++ rest).length
          (w' ++ lit "number:" ++ u ++ d ++ rest) := by
      simp only [subAllF, hma]
    rw [e1, if_pos hguard]
  rw [hout, hkept]
  have hXhead := subAllF_number_head (w' ++ lit "number:" ++ u ++ d ++ rest).length rest hrest
  have := readNumber_ws_number w' u
    (subAllF numberMatchAt (lit "0") (w' ++ lit "number:" ++ u ++ d ++ rest).length rest)
    c0 (hwall c0 (List.mem_cons_self _ _))
    (fun x hx => hwall x (List.mem_cons_of_mem _ hx)) hu hXhead
  have hshape : (c0 :: w') ++ lit "number:" ++ u ++ lit "0" ++
      subAllF numberMatchAt (lit "0") (w' ++ lit "number:" ++ u ++ d ++ rest).length rest =
      c0 :: (w' ++ (lit "number:" ++ (u ++ ('0' ::
        subAllF numberMatchAt (lit "0") (w' ++ lit "number:" ++ u ++ d ++ rest).length rest)))) := by
    simp [lit]
  rw [hshape]
  exact this

theorem readNumber_nodeNumberSub {l : Line} (h : matchNumberLine l = true) :
    readNumber (nodeNumberSub l) = some 0 := by
  unfold matchNumberLine at h
  rw [Option.isSome_iff_exists] at h
  obtain ⟨⟨kept, rest⟩, hma⟩ := h
  obtain ⟨w, u, d, hs, hkept, hwne, hwall, hu, hdne, hdall, hrest⟩ := numberMatchAt_some hma
  obtain ⟨c0, w', rfl⟩ : ∃ c0 w', w = c0 :: w' := by
    cases w with
    | nil => exact absurd rfl hwne
    | cons c0 w' => exact ⟨c0, w', rfl⟩
  have hout : nodeNumberSub l = kept ++ lit "0" ++ rest := by
    unfold nodeNumberSub
    rw [hma]
  rw [hout, hkept]
  have := readNumber_ws_number w' u rest c0 (hwall c0 (List.mem_cons_self _ _))
    (fun x hx => hwall x (List.mem_cons_of_mem _ hx)) hu hrest
  have hshape : (c0 :: w') ++ lit "number:" ++ u ++ lit "0" ++ rest =
      c0 :: (w' ++ (lit "number:" ++ (u ++ ('0' :: rest)))) := by
    simp [lit]
  rw [hshape]
  exact this

end CF

namespace CF

/-! ## Claims about the patcher scans -/

theorem nodeScanStep_sha_none {ver : Line} {hm : Platform → Option Line} {l : Line}
    (hsha : matchSha256Line l = true) : (nodeScanStep ver hm none l).2 = l := by
  have hv : (nodeVersionMatchAt l).isSome = false := nodeVersion_of_sha256 hsha
  have hn : (numberMatchAt l).isSome = false := matchNumberLine_of_sha256 hsha
  unfold nodeScanStep
  simp only [hv, hn, Bool.false_eq_true, if_false]
  by_cases hu : searchB tryIfUnixAt l = true
  · simp [hu]
  · by_cases hw : searchB (tryIfWinAt (lit "win-64")) l = true
    · simp [hu, hw]
    · by_cases hwa : searchB (tryIfWinAt (lit "win-arm64")) l = true
      · simp [hu, hw, hwa]
      · simp [hu, hw, hwa]

theorem nodePlatAt_none (ver : Line) (hm : Platform → Option Line) :
    ∀ (pre : List Line), (∀ l' ∈ pre, nodeSelectorLine l' = false) →
      nodePlatAt ver hm none pre = none := by
  intro pre
  induction pre with
  | nil => intro _; rfl
  | cons l0 pre ih =>
    intro hall
    have h0 : nodeSelectorLine l0 = false := hall l0 (List.mem_cons_self _ _)
    have hstep : (nodeScanStep ver hm none l0).1 = none := by
      unfold nodeScanStep
      by_cases hv : (nodeVersionMatchAt l0).isSome = true
      · simp [hv]
      · by_cases hn : (numberMatchAt l0).isSome = true
        · simp [hv, hn]
        · have hv' : (nodeVersionMatchAt l0).isSome = false := by
            simpa using hv
          have hn' : (numberMatchAt l0).isSome = false := by
            simpa using hn
          have hfalse : searchB tryIfUnixAt l0 = false ∧
              searchB (tryIfWinAt (lit "win-64")) l0 = false ∧
              searchB (tryIfWinAt (lit "win-arm64")) l0 = false := by
            unfold nodeSelectorLine at h0
            simp only [hv', hn', Bool.not_false, Bool.true_and, Bool.or_eq_false_iff] at h0
            exact ⟨h0.1.1, h0.1.2, h0.2⟩
          simp only [hv', hn', hfalse.1, hfalse.2.1, hfalse.2.2,
            Bool.false_eq_true, if_false]
    rw [show nodePlatAt ver hm none (l0 :: pre) =
        nodePlatAt ver hm (nodeScanStep ver hm none l0).1 pre from rfl, hstep]
    exact ih (fun x hx => hall x (List.mem_cons_of_mem _ hx))

/-- C1.  Patch locality: in both dialects, every line the scan does not
classify as a version-declaration, build-number, or checksum line is
byte-identical to the corresponding input line (in the structured dialect,
platform-selector lines only update the scoped state and are also copied
through unchanged). -/
theorem C1_patch_locality :
    (∀ (ver : Line) (hm : List (Line × Line)) (doc : List Line) (i : Nat) (l : Line),
      doc.get? i = some l → matchSetVersion l = false → matchNumberLine l = false →
      matchSha256Line l = false →
      (update_meta_yaml_lines ver hm doc).get? i = some l) ∧
    (∀ (ver : Line) (hm : Platform → Option Line) (doc : List Line) (i : Nat) (l : Line),
      doc.get? i = some l → (nodeVersionMatchAt l).isSome = false →
      (numberMatchAt l).isSome = false →
      (nodeSelectorLine l = true ∨ matchSha256Line l = false) →
      (update_recipe_yaml_lines ver hm doc).get? i = some l) := by
  constructor
  · intro ver hm doc i l hget h1 h2 h3
    rw [update_meta_yaml_lines_get? hget]
    unfold update_meta_yaml_line
    rw [if_neg (by simp [h1]), if_neg (by simp [h2]), if_neg (by simp [h3])]
  · intro ver hm doc i l hget hv hn hsel
    rw [show update_recipe_yaml_lines ver hm doc = nodeScanAux ver hm none doc from rfl,
      nodeScanAux_get? ver hm doc none i l hget]
    congr 1
    unfold nodeScanStep
    simp only [hv, hn, Bool.false_eq_true, if_false]
    by_cases hu : searchB tryIfUnixAt l = true
    · simp [hu]
    · by_cases hw : searchB (tryIfWinAt (lit "win-64")) l = true
      · simp [hu, hw]
      · by_cases hwa : searchB (tryIfWinAt (lit "win-arm64")) l = true
        · simp [hu, hw, hwa]
        · have hsha : matchSha256Line l = false := by
            rcases hsel with hs | hs
            · exfalso
              unfold nodeSelectorLine at hs
              simp [hv, hn, hu, hw, hwa] at hs
            · exact hs
          simp only [hu, hw, hwa, Bool.false_eq_true, if_false]
          cases nodePlatAt ver hm none (doc.take i) <;> simp [hsha]

/-- Witness applying C1_patch_locality to a comment line in each dialect. -/
theorem C1_patch_locality_witness :
    (update_meta_yaml_lines (lit "1.20.14") [] [lit "# about:\n"]).get? 0 =
      some (lit "# about:\n") ∧
    (update_recipe_yaml_lines (lit "20.11.0") (fun _ => none) [lit "# about:\n"]).get? 0 =
      some (lit "# about:\n") :=
  ⟨C1_patch_locality.1 (lit "1.20.14") [] [lit "# about:\n"] 0 (lit "# about:\n")
      (by decide) (by decide) (by decide) (by decide),
   C1_patch_locality.2 (lit "20.11.0") (fun _ => none) [lit "# about:\n"] 0 (lit "# about:\n")
      (by decide) (by decide) (by decide) (Or.inr (by decide))⟩

/-- C2.  Build-number reset: in both dialects, after patching, every line
matching the build-number pattern reads back as the integer 0, whatever its
original value and however many such lines the document contains. -/
theorem C2_build_number_reset :
    (∀ (ver : Line) (hm : List (Line × Line)) (doc : List Line) (i : Nat) (l : Line),
      doc.get? i = some l → matchNumberLine l = true →
      ((update_meta_yaml_lines ver hm doc).get? i).bind readNumber = some 0) ∧
    (∀ (ver : Line) (hm : Platform → Option Line) (doc : List Line) (i : Nat) (l : Line),
      doc.get? i = some l → matchNumberLine l = true →
      ((update_recipe_yaml_lines ver hm doc).get? i).bind readNumber = some 0) := by
  constructor
  · intro ver hm doc i l hget hn
    rw [update_meta_yaml_lines_get? hget]
    simp only [Option.some_bind]
    unfold update_meta_yaml_line
    rw [if_neg (by simp [matchSetVersion_of_number hn]), if_pos hn]
    exact readNumber_subGoNumber hn
  · intro ver hm doc i l hget hn
    rw [show update_recipe_yaml_lines ver hm doc = nodeScanAux ver hm none doc from rfl,
      nodeScanAux_get? ver hm doc none i l hget]
    simp only [Option.some_bind]
    have hv : (nodeVersionMatchAt l).isSome = false := nodeVersion_of_number hn
    have hn' : (numberMatchAt l).isSome = true := hn
    unfold nodeScanStep
    simp only [hv, hn', Bool.false_eq_true, if_false, if_true]
    exact readNumber_nodeNumberSub hn

/-- Witness applying C2_build_number_reset to a concrete `number:` line with
a nonzero value in each dialect. -/
theorem C2_build_number_reset_witness :
    ((update_meta_yaml_lines (lit "1.20.14") [] [lit "  number: 37\n"]).get? 0).bind
        readNumber = some 0 ∧
    ((update_recipe_yaml_lines (lit "20.11.0") (fun _ => none)
        [lit "  number: 37\n"]).get? 0).bind readNumber = some 0 :=
  ⟨C2_build_number_reset.1 (lit "1.20.14") [] [lit "  number: 37\n"] 0
      (lit "  number: 37\n") (by decide) (by decide),
   C2_build_number_reset.2 (lit "20.11.0") (fun _ => none) [lit "  number: 37\n"] 0
      (lit "  number: 37\n") (by decide) (by decide)⟩

/-- C8.  Legacy-dialect resolution gap: the scan always produces exactly one
output line per input line (a failed association never aborts the rest of
the document), and a checksum line whose backward window yields no URL, or a
URL absent from the hash mapping, is left byte-identical. -/
theorem C8_legacy_resolution_gap :
    (∀ (ver : Line) (hm : List (Line × Line)) (doc : List Line),
      (update_meta_yaml_lines ver hm doc).length = doc.length) ∧
    (∀ (ver : Line) (hm : List (Line × Line)) (doc : List Line) (i : Nat) (l : Line),
      doc.get? i = some l → matchSha256Line l = true →
      (findUrlAt doc i ver = none ∨
        ∃ u, findUrlAt doc i ver = some u ∧ alookup u hm = none) →
      (update_meta_yaml_lines ver hm doc).get? i = some l) := by
  constructor
  · intro ver hm doc
    exact updateMetaYamlAux_length ver hm doc doc 0
  · intro ver hm doc i l hget hsha hgap
    rw [update_meta_yaml_lines_get? hget]
    unfold update_meta_yaml_line
    rw [if_neg (by simp [matchSetVersion_of_sha256 hsha]),
      if_neg (by simp [matchNumberLine_of_sha256 hsha]), if_pos hsha]
    rcases hgap with hnone | ⟨u, hu, hlk⟩
    · rw [hnone]
    · rw [hu]
      change some (match alookup u hm with
        | some d => subGoSha256 d l
        | none => l) = some l
      rw [hlk]

/-- Witness applying C8_legacy_resolution_gap to a checksum line whose
backward window is empty (line 0 has no preceding lines). -/
theorem C8_legacy_resolution_gap_witness :
    (update_meta_yaml_lines (lit "1.20.14")
        [(lit "https://dl.google.com/go/go1.20.14.src.tar.gz", lit "aa")]
        [lit "  sha256: 0000000000000000000000000000000000000000000000000000000000000000\n"]).get? 0 =
      some (lit "  sha256: 0000000000000000000000000000000000000000000000000000000000000000\n") :=
  C8_legacy_resolution_gap.2 (lit "1.20.14")
    [(lit "https://dl.google.com/go/go1.20.14.src.tar.gz", lit "aa")]
    [lit "  sha256: 0000000000000000000000000000000000000000000000000000000000000000\n"]
    0 (lit "  sha256: 0000000000000000000000000000000000000000000000000000000000000000\n")
    (by decide) (by decide) (Or.inl (by decide))

/-- C7.  Structured-dialect checksum resolution: a line the scan classifies
as a checksum line, reached with platform context `p`, is rewritten with
the digest `HashMapping[p]`; when the mapping has no entry for `p` the line
is left byte-identical. -/
theorem C7_structured_checksum_resolution :
    ∀ (ver : Line) (hm : Platform → Option Line) (doc : List Line) (i : Nat) (l : Line)
      (p : Platform),
      doc.get? i = some l → nodeChecksumLine l = true →
      nodePlatAt ver hm none (doc.take i) = some p →
      (hm p = none → (update_recipe_yaml_lines ver hm doc).get? i = some l) ∧
      (∀ d : Line, hm p = some d →
        (update_recipe_yaml_lines ver hm doc).get? i = some (nodeSha256Sub d l)) := by
  intro ver hm doc i l p hget hcls hplat
  unfold nodeChecksumLine at hcls
  simp only [Bool.and_eq_true, Bool.not_eq_true'] at hcls
  obtain ⟨⟨⟨⟨⟨hv, hn⟩, hu⟩, hw⟩, hwa⟩, hsha⟩ := hcls
  constructor
  · intro hmp
    rw [show update_recipe_yaml_lines ver hm doc = nodeScanAux ver hm none doc from rfl,
      nodeScanAux_get? ver hm doc none i l hget, hplat]
    unfold nodeScanStep
    simp [hv, hn, hu, hw, hwa, hsha, hmp]
  · intro d hmp
    rw [show update_recipe_yaml_lines ver hm doc = nodeScanAux ver hm none doc from rfl,
      nodeScanAux_get? ver hm doc none i l hget, hplat]
    unfold nodeScanStep
    simp [hv, hn, hu, hw, hwa, hsha, hmp]

/-- Witness applying C7_structured_checksum_resolution to a checksum line in
a unix-selector block, with the digest present for unix and, separately,
with an empty mapping. -/
theorem C7_structured_checksum_resolution_witness :
    (update_recipe_yaml_lines (lit "20.11.0")
        (fun p => match p with
          | Platform.unix => some (lit "bbbbbbbbbbbbbbbbbbbbbbbbbbbbbbbbbbbbbbbbbbbbbbbbbbbbbbbbbbbbbbbb")
          | _ => none)
        [lit "- if: unix\n",
         lit "  sha256: aaaaaaaaaaaaaaaaaaaaaaaaaaaaaaaaaaaaaaaaaaaaaaaaaaaaaaaaaaaaaaaa\n"]).get? 1 =
      some (lit "  sha256: bbbbbbbbbbbbbbbbbbbbbbbbbbbbbbbbbbbbbbbbbbbbbbbbbbbbbbbbbbbbbbbb\n") ∧
    (update_recipe_yaml_lines (lit "20.11.0") (fun _ => none)
        [lit "- if: unix\n",
         lit "  sha256: aaaaaaaaaaaaaaaaaaaaaaaaaaaaaaaaaaaaaaaaaaaaaaaaaaaaaaaaaaaaaaaa\n"]).get? 1 =
      some (lit "  sha256: aaaaaaaaaaaaaaaaaaaaaaaaaaaaaaaaaaaaaaaaaaaaaaaaaaaaaaaaaaaaaaaa\n") := by
  constructor
  · have h := (C7_structured_checksum_resolution (lit "20.11.0")
      (fun p => match p with
        | Platform.unix => some (lit "bbbbbbbbbbbbbbbbbbbbbbbbbbbbbbbbbbbbbbbbbbbbbbbbbbbbbbbbbbbbbbbb")
        | _ => none)
      [lit "- if: unix\n",
       lit "  sha256: aaaaaaaaaaaaaaaaaaaaaaaaaaaaaaaaaaaaaaaaaaaaaaaaaaaaaaaaaaaaaaaa\n"]
      1 (lit "  sha256: aaaaaaaaaaaaaaaaaaaaaaaaaaaaaaaaaaaaaaaaaaaaaaaaaaaaaaaaaaaaaaaa\n")
      Platform.unix (by decide) (by decide) (by decide)).2
      (lit "bbbbbbbbbbbbbbbbbbbbbbbbbbbbbbbbbbbbbbbbbbbbbbbbbbbbbbbbbbbbbbbb") rfl
    rw [h]
    decide
  · exact (C7_structured_checksum_resolution (lit "20.11.0") (fun _ => none)
      [lit "- if: unix\n",
       lit "  sha256: aaaaaaaaaaaaaaaaaaaaaaaaaaaaaaaaaaaaaaaaaaaaaaaaaaaaaaaaaaaaaaaa\n"]
      1 (lit "  sha256: aaaaaaaaaaaaaaaaaaaaaaaaaaaaaaaaaaaaaaaaaaaaaaaaaaaaaaaaaaaaaaaa\n")
      Platform.unix (by decide) (by decide) (by decide)).1 rfl

/-- C10.  In the structured dialect a sha256-pattern line occurring before
any line the scan classifies as a platform selector is always left
byte-identical, because the platform context starts out unset. -/
theorem C10_pre_selector_checksum_untouched :
    ∀ (ver : Line) (hm : Platform → Option Line) (doc : List Line) (i : Nat) (l : Line),
      doc.get? i = some l → matchSha256Line l = true →
      (∀ l' ∈ doc.take i, nodeSelectorLine l' = false) →
      (update_recipe_yaml_lines ver hm doc).get? i = some l := by
  intro ver hm doc i l hget hsha hpre
  rw [show update_recipe_yaml_lines ver hm doc = nodeScanAux ver hm none doc from rfl,
    nodeScanAux_get? ver hm doc none i l hget,
    nodePlatAt_none ver hm (doc.take i) hpre,
    nodeScanStep_sha_none hsha]

/-- Witness applying C10_pre_selector_checksum_untouched: even with every
digest available, a checksum line at the top of the document is untouched. -/
theorem C10_pre_selector_checksum_untouched_witness :
    (update_recipe_yaml_lines (lit "20.11.0")
        (fun _ => some (lit "bbbbbbbbbbbbbbbbbbbbbbbbbbbbbbbbbbbbbbbbbbbbbbbbbbbbbbbbbbbbbbbb"))
        [lit "  sha256: aaaaaaaaaaaaaaaaaaaaaaaaaaaaaaaaaaaaaaaaaaaaaaaaaaaaaaaaaaaaaaaa\n"]).get? 0 =
      some (lit "  sha256: aaaaaaaaaaaaaaaaaaaaaaaaaaaaaaaaaaaaaaaaaaaaaaaaaaaaaaaaaaaaaaaa\n") :=
  C10_pre_selector_checksum_untouched (lit "20.11.0")
    (fun _ => some (lit "bbbbbbbbbbbbbbbbbbbbbbbbbbbbbbbbbbbbbbbbbbbbbbbbbbbbbbbbbbbbbbbb"))
    [lit "  sha256: aaaaaaaaaaaaaaaaaaaaaaaaaaaaaaaaaaaaaaaaaaaaaaaaaaaaaaaaaaaaaaaa\n"]
    0 (lit "  sha256: aaaaaaaaaaaaaaaaaaaaaaaaaaaaaaaaaaaaaaaaaaaaaaaaaaaaaaaaaaaaaaaa\n")
    (by decide) (by decide) (by simp)

end CF

namespace CF

/-! ## C6: legacy-dialect checksum lookup keys -/

theorem pyReplaceF_cons_ne {pat rep : Line} {p0 : Char} (hpat : pat.head? = some p0)
    {c : Char} (hc : c ≠ p0) (f : Nat) (t : Line) :
    pyReplaceF pat rep (f + 1) (c :: t) = c :: pyReplaceF pat rep f t := by
  obtain ⟨pt, rfl⟩ : ∃ pt, pat = p0 :: pt := by
    cases pat with
    | nil => simp at hpat
    | cons a pt =>
      refine ⟨pt, ?_⟩
      injection hpat with h
      rw [h]
  have hstrip : stripPre (p0 :: pt) (c :: t) = none := by
    have hne : p0 ≠ c := fun h => hc h.symm
    simp [stripPre, hne]
  simp [pyReplaceF, hstrip]

theorem pyReplace_keepLead (pat rep : Line) (p0 : Char) (hpat : pat.head? = some p0)
    (pre : Line) (hpre : ∀ c ∈ pre, c ≠ p0) (t : Line) :
    pyReplace pat rep (pre ++ t) = pre ++ pyReplace pat rep t := by
  suffices h : ∀ (f : Nat) (pre : Line), (∀ c ∈ pre, c ≠ p0) →
      pyReplaceF pat rep (pre.length + f) (pre ++ t) = pre ++ pyReplaceF pat rep f t by
    have h2 := h t.length pre hpre
    unfold pyReplace
    rw [List.length_append]
    exact h2
  intro f pre
  induction pre with
  | nil => intro _; simp
  | cons c pre ih =>
    intro hpre
    have hc : c ≠ p0 := hpre c (List.mem_cons_self _ _)
    have harith : (c :: pre).length + f = (pre.length + f) + 1 := by
      simp [List.length_cons]
      omega
    rw [harith, List.cons_append, pyReplaceF_cons_ne hpat hc,
      ih (fun x hx => hpre x (List.mem_cons_of_mem _ hx))]
    rfl

theorem httpsKey_expandTemplate (ver r : Line) :
    httpsKey (expandTemplate ver (lit "https://" ++ r)) = true := by
  unfold expandTemplate
  have hhc : ∀ c ∈ lit "https://", c ≠ '\x7b' := by decide
  rw [pyReplace_keepLead (lit "\x7b\x7b version \x7d\x7d") ver '\x7b' rfl _ hhc,
    pyReplace_keepLead (lit "\x7b\x7bversion\x7d\x7d") ver '\x7b' rfl _ hhc,
    pyReplace_keepLead (lit "\x7b\x7b name \x7d\x7d") (lit "go") '\x7b' rfl _ hhc,
    pyReplace_keepLead (lit "\x7b\x7bname\x7d\x7d") (lit "go") '\x7b' rfl _ hhc]
  unfold httpsKey
  rw [stripPre_self]
  rfl

theorem tryUrlGoAt_https {ver s u : Line} (h : tryUrlGoAt ver s = some u) :
    ∃ r, u = lit "https://" ++ r := by
  unfold tryUrlGoAt at h
  cases h1 : stripPre (lit "url:") s with
  | none => rw [h1] at h; simp at h
  | some s1 =>
    rw [h1] at h
    simp only [Option.bind_eq_bind, Option.some_bind] at h
    cases h2 : stripPre (lit "https://") (skipWs s1) with
    | none => rw [h2] at h; simp at h
    | some s2 =>
      rw [h2] at h
      simp only [Option.some_bind] at h
      split at h
      · exact absurd h (by simp)
      · split at h
        · exact ⟨_, (Option.some.inj h).symm⟩
        · exact absurd h (by simp)

theorem searchUrlGo_https {ver : Line} : ∀ {s u : Line},
    searchUrlGo ver s = some u → ∃ r, u = lit "https://" ++ r := by
  intro s
  induction s with
  | nil => intro u h; simp [searchUrlGo] at h
  | cons c t ih =>
    intro u h
    unfold searchUrlGo at h
    cases h1 : tryUrlGoAt ver (c :: t) with
    | some v =>
      rw [h1] at h
      obtain ⟨r, hr⟩ := tryUrlGoAt_https h1
      exact ⟨r, (Option.some.inj h) ▸ hr⟩
    | none =>
      rw [h1] at h
      exact ih h

theorem tryUrlTemplateAt_https {s u : Line} (h : tryUrlTemplateAt s = some u) :
    ∃ r, u = lit "https://" ++ r := by
  unfold tryUrlTemplateAt at h
  cases h1 : stripPre (lit "url:") s with
  | none => rw [h1] at h; simp at h
  | some s1 =>
    rw [h1] at h
    simp only [Option.bind_eq_bind, Option.some_bind] at h
    cases h2 : stripPre (lit "https://") (skipWs s1) with
    | none => rw [h2] at h; simp at h
    | some s2 =>
      rw [h2] at h
      simp only [Option.some_bind] at h
      split at h
      · exact absurd h (by simp)
      · split at h
        · exact absurd h (by simp)
        · refine ⟨s2.takeWhile notSpaceBrace ++
            templateReps (s2.dropWhile notSpaceBrace).length (s2.dropWhile notSpaceBrace), ?_⟩
          rw [← List.append_assoc]
          exact (Option.some.inj h).symm

theorem searchUrlTemplate_https : ∀ {s u : Line},
    searchUrlTemplate s = some u → ∃ r, u = lit "https://" ++ r := by
  intro s
  induction s with
  | nil => intro u h; simp [searchUrlTemplate] at h
  | cons c t ih =>
    intro u h
    unfold searchUrlTemplate at h
    cases h1 : tryUrlTemplateAt (c :: t) with
    | some v =>
      rw [h1] at h
      obtain ⟨r, hr⟩ := tryUrlTemplateAt_https h1
      exact ⟨r, (Option.some.inj h) ▸ hr⟩
    | none =>
      rw [h1] at h
      exact ih h

theorem findUrlScan_https {ver : Line} {doc : List Line} : ∀ {js : List Nat} {u : Line},
    findUrlScan ver doc js = some u → httpsKey u = true := by
  intro js
  induction js with
  | nil => intro u h; simp [findUrlScan] at h
  | cons j js ih =>
    intro u h
    unfold findUrlScan at h
    cases h1 : searchUrlGo ver (doc.getD j []) with
    | some v =>
      rw [h1] at h
      obtain ⟨r, hr⟩ := searchUrlGo_https h1
      have hu : u = lit "https://" ++ r := by
        rw [← Option.some.inj h]
        exact hr
      rw [hu]
      unfold httpsKey
      rw [stripPre_self]
      rfl
    | none =>
      rw [h1] at h
      cases h2 : searchUrlTemplate (doc.getD j []) with
      | some tpl =>
        rw [h2] at h
        obtain ⟨r, hr⟩ := searchUrlTemplate_https h2
        have hu : u = expandTemplate ver tpl := (Option.some.inj h).symm
        rw [hu, hr]
        exact httpsKey_expandTemplate ver r
      | none =>
        rw [h2] at h
        exact ih h

theorem findUrlAt_https {doc : List Line} {i : Nat} {ver u : Line}
    (h : findUrlAt doc i ver = some u) : httpsKey u = true :=
  findUrlScan_https h

/-- Counterexample to C6 as stated: the nearest preceding line carries both
a URL and an inline platform-selector comment (`# [unix]`), and the hash
mapping contains both the URL key and the selector key with different
digests; the patched checksum line carries the URL key's digest, not the
selector key's, so the selector is not preferred (in fact never consulted). -/
theorem C6_legacy_selector_preference_counterexample :
    (update_meta_yaml_lines (lit "1.21.0")
        [(lit "https://dl.google.com/go/go1.21.0.src.tar.gz",
          lit "aaaaaaaaaaaaaaaaaaaaaaaaaaaaaaaaaaaaaaaaaaaaaaaaaaaaaaaaaaaaaaaa"),
         (lit "unix",
          lit "bbbbbbbbbbbbbbbbbbbbbbbbbbbbbbbbbbbbbbbbbbbbbbbbbbbbbbbbbbbbbbbb")]
        [lit "x\n",
         lit "  url: https://dl.google.com/go/go1.21.0.src.tar.gz  # [unix]\n",
         lit "  sha256: 0000000000000000000000000000000000000000000000000000000000000000\n"]).get? 2 =
      some (lit "  sha256: aaaaaaaaaaaaaaaaaaaaaaaaaaaaaaaaaaaaaaaaaaaaaaaaaaaaaaaaaaaaaaaa\n") ∧
    (update_meta_yaml_lines (lit "1.21.0")
        [(lit "https://dl.google.com/go/go1.21.0.src.tar.gz",
          lit "aaaaaaaaaaaaaaaaaaaaaaaaaaaaaaaaaaaaaaaaaaaaaaaaaaaaaaaaaaaaaaaa"),
         (lit "unix",
          lit "bbbbbbbbbbbbbbbbbbbbbbbbbbbbbbbbbbbbbbbbbbbbbbbbbbbbbbbbbbbbbbbb")]
        [lit "x\n",
         lit "  url: https://dl.google.com/go/go1.21.0.src.tar.gz  # [unix]\n",
         lit "  sha256: 0000000000000000000000000000000000000000000000000000000000000000\n"]).get? 2 ≠
      some (lit "  sha256: bbbbbbbbbbbbbbbbbbbbbbbbbbbbbbbbbbbbbbbbbbbbbbbbbbbbbbbbbbbbbbbb\n") :=
  ⟨by decide, by decide⟩

/-- C6 amended.  In the legacy dialect, inline platform-selector comments
are never consulted: the lookup key into the hash mapping is derived solely
from a preceding `url:` line, so every key the scan can look up starts with
`https://`, and two hash mappings that agree on all such keys produce
identical patched documents. -/
theorem C6_legacy_selector_amended :
    ∀ (ver : Line) (doc : List Line) (hm1 hm2 : List (Line × Line)),
      (∀ u : Line, httpsKey u = true → alookup u hm1 = alookup u hm2) →
      update_meta_yaml_lines ver hm1 doc = update_meta_yaml_lines ver hm2 doc := by
  intro ver doc hm1 hm2 hmaps
  unfold update_meta_yaml_lines
  suffices h : ∀ (ls : List Line) (i0 : Nat),
      updateMetaYamlAux ver hm1 doc i0 ls = updateMetaYamlAux ver hm2 doc i0 ls from
    h doc 0
  intro ls
  induction ls with
  | nil => intro i0; rfl
  | cons l0 ls ih =>
    intro i0
    rw [show updateMetaYamlAux ver hm1 doc i0 (l0 :: ls) =
        update_meta_yaml_line ver hm1 doc i0 l0 :: updateMetaYamlAux ver hm1 doc (i0 + 1) ls
      from rfl,
      show updateMetaYamlAux ver hm2 doc i0 (l0 :: ls) =
        update_meta_yaml_line ver hm2 doc i0 l0 :: updateMetaYamlAux ver hm2 doc (i0 + 1) ls
      from rfl,
      ih (i0 + 1)]
    congr 1
    unfold update_meta_yaml_line
    by_cases h1 : matchSetVersion l0 = true
    · rw [if_pos h1, if_pos h1]
    · rw [if_neg h1, if_neg h1]
      by_cases h2 : matchNumberLine l0 = true
      · rw [if_pos h2, if_pos h2]
      · rw [if_neg h2, if_neg h2]
        by_cases h3 : matchSha256Line l0 = true
        · rw [if_pos h3, if_pos h3]
          cases hf : findUrlAt doc i0 ver with
          | none => rfl
          | some u =>
            change (match alookup u hm1 with
              | some d => subGoSha256 d l0
              | none => l0) = (match alookup u hm2 with
              | some d => subGoSha256 d l0
              | none => l0)
            rw [hmaps u (findUrlAt_https hf)]
        · rw [if_neg h3, if_neg h3]

/-- Witness applying C6_legacy_selector_amended: adding a selector-keyed
entry (`unix`) to the hash mapping does not change the patched document. -/
theorem C6_legacy_selector_amended_witness :
    update_meta_yaml_lines (lit "1.21.0")
        [(lit "unix",
          lit "bbbbbbbbbbbbbbbbbbbbbbbbbbbbbbbbbbbbbbbbbbbbbbbbbbbbbbbbbbbbbbbb")]
        [lit "x\n",
         lit "  url: https://dl.google.com/go/go1.21.0.src.tar.gz  # [unix]\n",
         lit "  sha256: 0000000000000000000000000000000000000000000000000000000000000000\n"] =
      update_meta_yaml_lines (lit "1.21.0") []
        [lit "x\n",
         lit "  url: https://dl.google.com/go/go1.21.0.src.tar.gz  # [unix]\n",
         lit "  sha256: 0000000000000000000000000000000000000000000000000000000000000000\n"] :=
  C6_legacy_selector_amended (lit "1.21.0")
    [lit "x\n",
     lit "  url: https://dl.google.com/go/go1.21.0.src.tar.gz  # [unix]\n",
     lit "  sha256: 0000000000000000000000000000000000000000000000000000000000000000\n"]
    [(lit "unix",
      lit "bbbbbbbbbbbbbbbbbbbbbbbbbbbbbbbbbbbbbbbbbbbbbbbbbbbbbbbbbbbbbbbb")] []
    (fun u hu => by
      have hx : httpsKey (lit "unix") = false := by decide
      have hne : lit "unix" ≠ u := by
        intro he
        rw [← he, hx] at hu
        exact absurd hu (by simp)
      rw [show alookup u [(lit "unix",
          lit "bbbbbbbbbbbbbbbbbbbbbbbbbbbbbbbbbbbbbbbbbbbbbbbbbbbbbbbbbbbbbbbb")] =
        if lit "unix" = u then
          some (lit "bbbbbbbbbbbbbbbbbbbbbbbbbbbbbbbbbbbbbbbbbbbbbbbbbbbbbbbbbbbbbbbb")
        else alookup u [] from rfl, if_neg hne])

end CF
